import Mathlib

/-!
# ZapTorrent download core — verification of the specification against the source

This file gives a shallow embedding, in Lean 4, of the pure content of the
ZapTorrent BitTorrent client (`src/ZapCore/torrent_parser.py`,
`src/ZapCore/file_assembler.py`, `src/ZapCore/tracker_request.py`,
`src/ZapCore/peer_connection.py`, `src/main.py`) and proves or refutes the
frozen claims about it.

Conventions:
* Python `bytes` values are modelled as `List Nat` (each entry a byte value).
* Python unbounded integers are `Nat` or `Int`; machine-width wrap-around is
  written explicitly with `% 2^w` where the code relies on it.
* Fallible Python code (exceptions) is modelled with `Option` / `Except`.
* The third-party `bencodepy` codec and `hashlib.sha1` are not part of the
  repository; they are modelled here from their standard, documented
  behaviour (the classic BitTorrent bencode codec, and FIPS 180 SHA-1),
  executable so that every claim can be evaluated on concrete inputs.
-/

namespace ZapTorrent

/-! ## Byte-level utilities -/

/-- Truncate to an unsigned 32-bit value. -/
def u32 (x : Nat) : Nat := x % 4294967296

/-- Rotate a 32-bit value left by `n` bits. -/
def rotl (n x : Nat) : Nat := u32 ((x <<< n) ||| (x >>> (32 - n)))

/-- Big-endian 2-byte encoding (`struct.pack ">H"`). -/
def be16 (x : Nat) : List Nat := [x / 256 % 256, x % 256]

/-- Big-endian 4-byte encoding (`struct.pack ">I"` / `">L"`). -/
def be32 (x : Nat) : List Nat :=
  [x / 16777216 % 256, x / 65536 % 256, x / 256 % 256, x % 256]

/-- Big-endian 8-byte encoding (`struct.pack ">Q"`). -/
def be64 (x : Nat) : List Nat :=
  be32 (x / 4294967296) ++ be32 x

/-- Big-endian value of a byte string (`int.from_bytes(_, "big")` /
`struct.unpack ">I"` on 4 bytes). -/
def beVal (l : List Nat) : Nat := l.foldl (fun a b => a * 256 + b) 0

/-! ## SHA-1 (`hashlib.sha1(...).digest()`)

Executable FIPS 180-4 SHA-1 over a byte list, producing the 20-byte digest. -/

/-- SHA-1 round constant for round `i`. -/
def sha1K (i : Nat) : Nat :=
  if i < 20 then 0x5A827999
  else if i < 40 then 0x6ED9EBA1
  else if i < 60 then 0x8F1BBCDC
  else 0xCA62C1D6

/-- SHA-1 round mixing function for round `i`. -/
def sha1F (i b c d : Nat) : Nat :=
  if i < 20 then (b &&& c) ||| ((b ^^^ 0xFFFFFFFF) &&& d)
  else if i < 40 then b ^^^ c ^^^ d
  else if i < 60 then (b &&& c) ||| (b &&& d) ||| (c &&& d)
  else b ^^^ c ^^^ d

/-- Split a 64-byte chunk into 16 big-endian 32-bit words. -/
def wordsOf : List Nat → List Nat
  | a :: b :: c :: d :: rest => (((a * 256 + b) * 256 + c) * 256 + d) :: wordsOf rest
  | _ => []

/-- Extend the 16-word schedule by `n` further words. -/
def sha1Extend : Nat → List Nat → List Nat
  | 0, w => w
  | n + 1, w =>
    let i := w.length
    let x := rotl 1 ((w.getD (i - 3) 0) ^^^ (w.getD (i - 8) 0) ^^^
                     (w.getD (i - 14) 0) ^^^ (w.getD (i - 16) 0))
    sha1Extend n (w ++ [x])

/-- One SHA-1 round on the five-word state. -/
def sha1Round (st : Nat × Nat × Nat × Nat × Nat) (i w : Nat) :
    Nat × Nat × Nat × Nat × Nat :=
  let (a, b, c, d, e) := st
  (u32 (rotl 5 a + sha1F i b c d + e + sha1K i + w), a, rotl 30 b, c, d)

/-- Run the 80 rounds over the schedule, starting at round index `i`. -/
def sha1Rounds : List Nat → Nat → Nat × Nat × Nat × Nat × Nat →
    Nat × Nat × Nat × Nat × Nat
  | [], _, st => st
  | w :: ws, i, st => sha1Rounds ws (i + 1) (sha1Round st i w)

/-- Compress one 64-byte chunk into the running state. -/
def sha1Chunk (h : Nat × Nat × Nat × Nat × Nat) (chunk : List Nat) :
    Nat × Nat × Nat × Nat × Nat :=
  let w := sha1Extend 64 (wordsOf chunk)
  let (a, b, c, d, e) := sha1Rounds w 0 h
  (u32 (h.1 + a), u32 (h.2.1 + b), u32 (h.2.2.1 + c),
   u32 (h.2.2.2.1 + d), u32 (h.2.2.2.2 + e))

/-- SHA-1 padding: append `0x80`, zeros to 56 mod 64, and the bit length. -/
def sha1PadBytes (msg : List Nat) : List Nat :=
  msg ++ 0x80 :: List.replicate ((55 + 64 - msg.length % 64) % 64) 0 ++
    be64 (8 * msg.length)

/-- Split a byte list into 64-byte chunks (structural recursion on a fuel
bound so the definition evaluates inside the kernel). -/
def chunks64Go : Nat → List Nat → List (List Nat)
  | 0, _ => []
  | _, [] => []
  | fuel + 1, l => l.take 64 :: chunks64Go fuel (l.drop 64)

/-- Split a byte list into 64-byte chunks. -/
def chunks64 (l : List Nat) : List (List Nat) := chunks64Go l.length l

/-- SHA-1 digest (20 bytes) of a byte list: `hashlib.sha1(msg).digest()`. -/
def sha1 (msg : List Nat) : List Nat :=
  let st := (chunks64 (sha1PadBytes msg)).foldl sha1Chunk
    (0x67452301, 0xEFCDAB89, 0x98BADCFE, 0x10325476, 0xC3D2E1F0)
  be32 st.1 ++ be32 st.2.1 ++ be32 st.2.2.1 ++ be32 st.2.2.2.1 ++ be32 st.2.2.2.2

set_option maxRecDepth 100000 in
example : sha1 [0x61, 0x62] =
    [0xda, 0x23, 0x61, 0x4e, 0x02, 0x46, 0x9a, 0x0d, 0x7c, 0x7b,
     0xd1, 0xbd, 0xab, 0x5c, 0x9c, 0x47, 0x4b, 0x19, 0x04, 0xdc] := by decide

/-! ## Bencode (`bencodepy`)

The repository decodes and encodes with the third-party `bencodepy` module,
which implements the classic BitTorrent bencode codec.  Modelled here:
the decoder accepts `i...e` integers (rejecting `-0` and leading zeros),
`<len>:<bytes>` strings (rejecting leading-zero lengths), `l...e` lists and
`d...e` dictionaries.  The decoder does *not* require dictionary keys to be
sorted (the classic `decode_dict` reads key/value pairs without an ordering
check), and duplicate keys overwrite in place as for a Python `dict`.
The top level requires the whole input to be consumed.  The encoder emits
dictionaries with keys in sorted (lexicographic bytes) order, as
`bencodepy.bencode` does via `sorted(x.items())`. -/

mutual
/-- Bencode values as returned by `bencodepy.bdecode`: a dictionary is an
insertion-ordered association list, as for a Python `dict`.  The list and
dictionary spines are their own inductives so every function over values is
structurally recursive (and hence evaluates inside the kernel). -/
inductive BValue where
  | int (n : Int)
  | str (s : List Nat)
  | list (l : BList)
  | dict (d : BPairs)

/-- Spine of a bencode list value. -/
inductive BList where
  | nil
  | cons (v : BValue) (tl : BList)

/-- Spine of a bencode dictionary value: key/value pairs in insertion order. -/
inductive BPairs where
  | nil
  | cons (k : List Nat) (v : BValue) (tl : BPairs)
end

/-- Number of elements of a bencode list (Python `len`). -/
def blistLen : BList → Nat
  | .nil => 0
  | .cons _ tl => 1 + blistLen tl

/-- Number of key/value pairs of a bencode dictionary (Python `len`). -/
def bpairsLen : BPairs → Nat
  | .nil => 0
  | .cons _ _ tl => 1 + bpairsLen tl

/-- Python `d.get(k)` on a dictionary value: first pair with the key. -/
def dictGet (d : BPairs) (k : List Nat) : Option BValue :=
  match d with
  | .nil => none
  | .cons k' v tl => if k' = k then some v else dictGet tl k

/-- ASCII decimal digit test. -/
def isDigit (b : Nat) : Bool := 48 ≤ b && b ≤ 57

/-- Value of a list of ASCII digits. -/
def digitsVal (ds : List Nat) : Nat := ds.foldl (fun a d => a * 10 + (d - 48)) 0

/-- Parse the body of `i...e` (the part after `i`): optional minus sign and
digits, then `e`; `-0` and leading zeros are rejected as in `decode_int`. -/
def parseBInt (l : List Nat) : Option (Int × List Nat) :=
  match l with
  | 45 :: rest =>
    match rest.takeWhile isDigit, rest.dropWhile isDigit with
    | [], _ => none
    | d :: ds, 101 :: rest' =>
      if d = 48 then none else some (-(digitsVal (d :: ds) : Int), rest')
    | _, _ => none
  | _ =>
    match l.takeWhile isDigit, l.dropWhile isDigit with
    | [], _ => none
    | d :: ds, 101 :: rest' =>
      if d = 48 ∧ ds ≠ [] then none else some ((digitsVal (d :: ds) : Int), rest')
    | _, _ => none

/-- Parse a bencoded string `<len>:<bytes>` at the head of the input;
leading-zero lengths are rejected as in `decode_string`. -/
def parseBStr (l : List Nat) : Option (List Nat × List Nat) :=
  match l.takeWhile isDigit, l.dropWhile isDigit with
  | [], _ => none
  | d :: ds, 58 :: rest =>
    if d = 48 ∧ ds ≠ [] then none
    else
      let n := digitsVal (d :: ds)
      if rest.length < n then none else some (rest.take n, rest.drop n)
  | _, _ => none

/-- Python `dict` assignment `r[k] = v` on an insertion-ordered association
list: replace in place if the key exists, else append. -/
def assocUpdate (k : List Nat) (v : BValue) : BPairs → BPairs
  | .nil => .cons k v .nil
  | .cons k' v' rest =>
    if k' = k then .cons k v rest else .cons k' v' (assocUpdate k v rest)

mutual

/-- Fuel-bounded bencode value decoder; returns the value and the rest of the
input.  Dispatch on the head byte: `i` (105) integer, `l` (108) list,
`d` (100) dictionary, digit string. -/
def bdecodeAt : Nat → List Nat → Option (BValue × List Nat)
  | 0, _ => none
  | fuel + 1, l =>
    match l with
    | [] => none
    | 105 :: rest => (parseBInt rest).map (fun p => (BValue.int p.1, p.2))
    | 108 :: rest =>
      (bdecodeListAt fuel rest).map (fun p => (BValue.list p.1, p.2))
    | 100 :: rest =>
      (bdecodeDictAt fuel .nil rest).map (fun p => (BValue.dict p.1, p.2))
    | b :: _ =>
      if isDigit b then (parseBStr l).map (fun p => (BValue.str p.1, p.2))
      else none

/-- Decode list elements until the closing `e` (101). -/
def bdecodeListAt : Nat → List Nat → Option (BList × List Nat)
  | 0, _ => none
  | fuel + 1, l =>
    match l with
    | 101 :: rest => some (.nil, rest)
    | _ =>
      match bdecodeAt fuel l with
      | none => none
      | some (v, r) =>
        match bdecodeListAt fuel r with
        | none => none
        | some (vs, r') => some (.cons v vs, r')

/-- Decode dictionary key/value pairs until the closing `e` (101),
accumulating with Python-`dict` assignment semantics. -/
def bdecodeDictAt : Nat → BPairs → List Nat → Option (BPairs × List Nat)
  | 0, _, _ => none
  | fuel + 1, acc, l =>
    match l with
    | 101 :: rest => some (acc, rest)
    | _ =>
      match parseBStr l with
      | none => none
      | some (k, r) =>
        match bdecodeAt fuel r with
        | none => none
        | some (v, r') => bdecodeDictAt fuel (assocUpdate k v acc) r'

end

/-- `bencodepy.bdecode`: decode a full bencoded byte string; any leftover
bytes make the whole input invalid. -/
def bdecode (l : List Nat) : Option BValue :=
  match bdecodeAt (2 * l.length + 2) l with
  | some (v, []) => some v
  | _ => none

/-- ASCII decimal digits of a natural number (fuel-bounded). -/
def natDecimalGo : Nat → Nat → List Nat
  | 0, _ => []
  | fuel + 1, n => if n < 10 then [48 + n] else natDecimalGo fuel (n / 10) ++ [48 + n % 10]

/-- ASCII decimal digits of a natural number (`str(n)` for `n ≥ 0`). -/
def natDecimal (n : Nat) : List Nat := natDecimalGo (n + 1) n

/-- ASCII decimal representation of an integer (`str(n)`). -/
def intDecimal (n : Int) : List Nat :=
  if n < 0 then 45 :: natDecimal (-n).toNat else natDecimal n.toNat

/-- Lexicographic strict order on byte strings (Python `bytes` comparison). -/
def bytesLt : List Nat → List Nat → Bool
  | [], [] => false
  | [], _ :: _ => true
  | _ :: _, [] => false
  | a :: as, b :: bs => if a < b then true else if b < a then false else bytesLt as bs

/-- Insert a key/encoded-value pair into a key-sorted list. -/
def insertByKey (p : List Nat × List Nat) :
    List (List Nat × List Nat) → List (List Nat × List Nat)
  | [] => [p]
  | q :: rest => if bytesLt q.1 p.1 then q :: insertByKey p rest else p :: q :: rest

/-- Sort key/encoded-value pairs by key (`sorted(x.items())`; a Python `dict`
has distinct keys, so comparison never reaches the values). -/
def sortByKey (l : List (List Nat × List Nat)) : List (List Nat × List Nat) :=
  l.foldr insertByKey []

mutual

/-- `bencodepy.bencode`: encode a bencode value; dictionaries are emitted
with keys in sorted order (encoding a value is position-independent, so
encoding each pair first and then sorting by key is exactly
`for k, v in sorted(x.items())`). -/
def bencodeVal : BValue → List Nat
  | .int n => 105 :: (intDecimal n ++ [101])
  | .str s => natDecimal s.length ++ 58 :: s
  | .list l => 108 :: (bencodeBList l ++ [101])
  | .dict d =>
    100 :: (((sortByKey (bencodePairs d)).map
      (fun p => natDecimal p.1.length ++ 58 :: p.1 ++ p.2)).flatten ++ [101])

/-- Encode the elements of a bencode list, concatenated. -/
def bencodeBList : BList → List Nat
  | .nil => []
  | .cons v tl => bencodeVal v ++ bencodeBList tl

/-- Encode the values of a dictionary, keeping keys alongside. -/
def bencodePairs : BPairs → List (List Nat × List Nat)
  | .nil => []
  | .cons k v tl => (k, bencodeVal v) :: bencodePairs tl

end

/-- Walk the key/value pairs of the top-level dictionary of a metainfo file
and return the exact byte span occupied by the value of the `info` key, as it
appears in the source bytes. -/
def infoSpanPairs : Nat → List Nat → Option (List Nat)
  | 0, _ => none
  | fuel + 1, l =>
    match l with
    | 101 :: _ => none
    | _ =>
      match parseBStr l with
      | none => none
      | some (k, r) =>
        match bdecodeAt (2 * r.length + 2) r with
        | none => none
        | some (_, r') =>
          if k = [105, 110, 102, 111] then some (r.take (r.length - r'.length))
          else infoSpanPairs fuel r'

/-- The exact byte span of the bencoded `info` dictionary inside a metainfo
file (the bytes a specification-conforming infohash must be computed on). -/
def infoSpan (content : List Nat) : Option (List Nat) :=
  match content with
  | 100 :: rest => infoSpanPairs rest.length rest
  | _ => none

example : bdecode [100, 101] = some (BValue.dict .nil) := rfl
example : bdecode [105, 52, 50, 101] = some (BValue.int 42) := rfl
example : bencodeVal (BValue.dict (.cons [98] (BValue.int 1)
      (.cons [97] (BValue.int 2) .nil))) =
    [100, 49, 58, 97, 105, 50, 101, 49, 58, 98, 105, 49, 101, 101] := rfl

/-! ## `torrent_parser.py` — `parse_torrent` and `convert_to_dict` -/

/-- `b'announce'`. -/
def announceKey : List Nat := [97, 110, 110, 111, 117, 110, 99, 101]

/-- `b'announce-list'`. -/
def announceListKey : List Nat :=
  [97, 110, 110, 111, 117, 110, 99, 101, 45, 108, 105, 115, 116]

/-- `b'info'`. -/
def infoKey : List Nat := [105, 110, 102, 111]

/-- `b'piece length'`. -/
def pieceLengthKey : List Nat :=
  [112, 105, 101, 99, 101, 32, 108, 101, 110, 103, 116, 104]

/-- `b'pieces'`. -/
def piecesKey : List Nat := [112, 105, 101, 99, 101, 115]

/-- Python `len(...)` on a decoded bencode value; `none` models the
`TypeError` raised by `len` on an `int`. -/
def bvalLen : BValue → Option Nat
  | .int _ => none
  | .str s => some s.length
  | .list l => some (blistLen l)
  | .dict d => some (bpairsLen d)

/-- The metadata dictionary built by `convert_to_dict`.  Fields whose Python
value is a fallback string (announce, announce-list, piece length, pieces
when the key is missing) are modelled as `none`; `convert_to_dict` performs
no validation, it only substitutes those defaults. -/
structure Metadata where
  announce : Option BValue
  announceList : Option BValue
  pieceLength : Option BValue
  pieceCount : Nat
  info : BPairs
  infoHash : List Nat
  pieces : Option BValue

/-- `convert_to_dict(decoded_data)`.  `decoded_data.get` requires a
dictionary (`.error` models the `AttributeError` on any other value, which
escapes `parse_torrent`); likewise `info.get` requires `info` to be a
dictionary.  `piece count` is `len(info.get(b'pieces', <default str>)) // 20`
where the default fallback string has length 34.  The `info hash` is SHA-1 of
`bencodepy.bencode(info)` — a canonical re-encoding of the decoded value, not
of the source bytes. -/
def convert_to_dict (decoded : BValue) : Except Unit Metadata :=
  match decoded with
  | .dict dd =>
    match (dictGet dd infoKey).getD (.dict .nil) with
    | .dict info =>
      match (match dictGet info piecesKey with
             | none => some 34
             | some v => bvalLen v) with
      | none => .error ()
      | some piecesLen =>
        .ok { announce := dictGet dd announceKey
              announceList := dictGet dd announceListKey
              pieceLength := dictGet info pieceLengthKey
              pieceCount := piecesLen / 20
              info := info
              infoHash := sha1 (bencodeVal (.dict info))
              pieces := dictGet info piecesKey }
    | _ => .error ()
  | _ => .error ()

/-- `parse_torrent(file)` on the file's bytes.  On any exception the Python
function logs it and then raises `UnboundLocalError` at `return
final_metadata` (the variable was never bound), so failure is an escaping
exception, modelled as `.error`. -/
def parse_torrent (content : List Nat) : Except Unit Metadata :=
  match bdecode content with
  | none => .error ()
  | some v => convert_to_dict v

/-! ### Claim C1 — the info hash and the exact info byte span

`convert_to_dict` computes `hashlib.sha1(bencodepy.bencode(info)).digest()`:
SHA-1 of a canonical *re-encoding* of the decoded info dictionary.  For a
metainfo file whose info dictionary is not in canonical form (here: keys out
of sorted order, which the decoder accepts), this differs from SHA-1 of the
exact byte span of the info dictionary in the source file, which is what the
specification requires. -/

/-- A metainfo file `d8:announce1:x4:infod1:bi1e1:ai2eee` whose info
dictionary `d1:bi1e1:ai2ee` has its keys out of canonical (sorted) order. -/
def c1Content : List Nat :=
  [100, 56, 58, 97, 110, 110, 111, 117, 110, 99, 101, 49, 58, 120,
   52, 58, 105, 110, 102, 111,
   100, 49, 58, 98, 105, 49, 101, 49, 58, 97, 105, 50, 101, 101,
   101]

/-- The exact source-byte span of the info dictionary in `c1Content`:
`d1:bi1e1:ai2ee`. -/
def c1Span : List Nat :=
  [100, 49, 58, 98, 105, 49, 101, 49, 58, 97, 105, 50, 101, 101]

/-- The decoded info dictionary of `c1Content` (insertion order `b`, `a`). -/
def c1Info : BPairs :=
  .cons [98] (BValue.int 1) (.cons [97] (BValue.int 2) .nil)

set_option maxRecDepth 1000000 in
/-- **C1.** The parser accepts `c1Content`, whose info dictionary occupies
the exact source bytes `c1Span`, but stores as `info hash` the SHA-1 of the
canonical re-encoding of the decoded dictionary, which differs from the
SHA-1 of the exact byte span: the code computes the infohash on a
re-encoding, contradicting the specification's requirement that it be
computed on the exact bytes present in the source file. -/
theorem C1_infohash_uses_reencoding :
    infoSpan c1Content = some c1Span ∧
    (parse_torrent c1Content).toOption.map Metadata.infoHash =
      some (sha1 (bencodeVal (BValue.dict c1Info))) ∧
    sha1 (bencodeVal (BValue.dict c1Info)) ≠ sha1 c1Span := by
  refine ⟨rfl, rfl, ?_⟩
  decide

/-! ### Claim C2 — which metainfo inputs are fatal

`convert_to_dict` validates nothing: every lookup has a fallback default, so
a metainfo missing `announce`, `info`, `piece length` or `pieces`, with a
pieces blob whose length is not a multiple of 20, or with a zero
`piece length`, still yields a metadata dictionary.  Only malformed bencode
(and non-dictionary shapes) aborts the run. -/

set_option maxRecDepth 1000000 in
/-- **C2 counterexample.** The well-formed bencode file `de` (an empty
dictionary, missing *every* required key) is accepted: `parse_torrent`
returns a usable metadata dictionary — with the nonsense piece count
`len("No SHA-1 Checksum for pieces found") // 20 = 1` — instead of failing
fatally as the claim requires. -/
theorem C2_missing_keys_not_fatal :
    (parse_torrent [100, 101]).toOption.map Metadata.pieceCount = some 1 ∧
    (parse_torrent [100, 101]).toOption.map Metadata.pieceLength = some none := by
  exact ⟨rfl, rfl⟩

/-- **C2 amended.** Malformed bencode is fatal (`parse_torrent` raises), but
missing required keys, a pieces blob whose length is not a multiple of 20,
and a zero piece length are all accepted: whenever the file decodes to a
dictionary whose `info` value (or its default `{}`) is a dictionary and
whose `pieces` value, if present, is not an `int`, the parser returns a
metadata dictionary with defaults substituted — the engine does not refuse
to start. -/
theorem C2_metainfo_failure_amended (content : List Nat) :
    (bdecode content = none → parse_torrent content = .error ()) ∧
    (∀ d info, bdecode content = some (.dict d) →
      (dictGet d infoKey).getD (.dict .nil) = .dict info →
      (match dictGet info piecesKey with
       | some (.int _) => False
       | _ => True) →
      ∃ md, parse_torrent content = .ok md) := by
  constructor
  · intro h
    simp [parse_torrent, h]
  · intro d info hd hinfo hp
    simp only [parse_torrent, hd]
    simp only [convert_to_dict, hinfo]
    match hpc : dictGet info piecesKey with
    | none => exact ⟨_, rfl⟩
    | some (.str s) => exact ⟨_, rfl⟩
    | some (.list l) => exact ⟨_, rfl⟩
    | some (.dict dd) => exact ⟨_, rfl⟩
    | some (.int n) => rw [hpc] at hp; exact absurd hp (by simp)

set_option maxRecDepth 1000000 in
/-- Witness for the amended C2 theorem at the concrete input `de`. -/
theorem C2_metainfo_failure_amended_witness :
    ∃ md, parse_torrent [100, 101] = .ok md :=
  (C2_metainfo_failure_amended [100, 101]).2 .nil .nil rfl rfl trivial

/-! ## `file_assembler.py` — single-file assembly (claim C3)

`assemble_single` opens the target with `open(file_path, "a+b")` and then
calls `f.seek(piece_index * piece_length)` followed by `f.write(piece_data)`.
Mode `"a"` sets `O_APPEND`: every write lands at the current end of file
regardless of the seek position, so the seek has no effect on where the
bytes go. -/

/-- Positional write into a byte file at offset `pos`, zero-filling any gap:
the behaviour of `seek`+`write` on a file opened in read/write mode, which is
what the specification prescribes (`singleWriteSpec` below). -/
def writeAt (file : List Nat) (pos : Nat) (data : List Nat) : List Nat :=
  let f := if file.length < pos then file ++ List.replicate (pos - file.length) 0 else file
  f.take pos ++ data ++ f.drop (pos + data.length)

/-- `assemble_single(piece_index, piece_data, piece_length, file_path)`
acting on the current contents of the target file: the file is opened with
mode `"a+b"`, so the `f.seek(piece_index * piece_length)` call is overridden
by `O_APPEND` and `f.write(piece_data)` appends at end of file. -/
def assemble_single (pieceIndex : Nat) (pieceData : List Nat)
    (pieceLength : Nat) (file : List Nat) : List Nat :=
  file ++ pieceData

/-- Modelled from the spec: the single-file write rule of §4.4 — open in
read/write/create mode, `seek(piece_index * piece_length)`, write the piece
bytes at that position. -/
def singleWriteSpec (pieceIndex : Nat) (pieceData : List Nat)
    (pieceLength : Nat) (file : List Nat) : List Nat :=
  writeAt file (pieceIndex * pieceLength) pieceData

/-- Run a sequence of `(piece_index, piece_data)` assembly tasks through
`assemble_single` on an initially given file. -/
def assembleTasks (file : List Nat) (tasks : List (Nat × List Nat))
    (pieceLength : Nat) : List Nat :=
  tasks.foldl (fun f t => assemble_single t.1 t.2 pieceLength f) file

/-- The same task sequence under the specification's positional-write rule. -/
def assembleTasksSpec (file : List Nat) (tasks : List (Nat × List Nat))
    (pieceLength : Nat) : List Nat :=
  tasks.foldl (fun f t => singleWriteSpec t.1 t.2 pieceLength f) file

/-- **C3.** Because `assemble_single` opens the file in append mode, the
byte offset of a write is the arrival order, not `piece_index *
piece_length`: submitting (1,"cd") then (0,"ab") to an empty 4-byte target
with piece length 2 produces `63 64 61 62`, while the specified positional
write produces `61 62 63 64`; only the in-order arrival coincidentally
matches the specified contents. -/
theorem C3_append_mode_ignores_seek :
    assembleTasks [] [(1, [99, 100]), (0, [97, 98])] 2 = [99, 100, 97, 98] ∧
    assembleTasksSpec [] [(1, [99, 100]), (0, [97, 98])] 2 = [97, 98, 99, 100] ∧
    assembleTasks [] [(0, [97, 98]), (1, [99, 100])] 2 = [97, 98, 99, 100] := by
  refine ⟨rfl, ?_, rfl⟩
  decide

/-! ## `file_assembler.py` — multi-file assembly (claim C4)

`assemble_multiple` walks the file lookup table from the index found by
`bisect.bisect_left(file_ends_list, piece_start)` and writes, for each file
overlapping the piece's byte range, the slice
`piece_data[overlap_start - piece_start :][: write_len]` at file offset
`overlap_start - file["start"]`.  Arithmetic is on Python's unbounded signed
integers, modelled with `Int`. -/

/-- One entry of the file lookup table built by `construct_lookup_table`:
`{"start": .., "end": .., "length": .., "path": ..}` (`stop` models the
dictionary key `"end"`; `path` is an opaque file identifier). -/
structure FileEntry where
  start : Int
  stop : Int
  length : Int
  path : Nat
deriving DecidableEq

/-- One file write performed by `assemble_multiple`: the target file, the
offset passed to `f.seek` (`overlap_start - file["start"]`), and the bytes
passed to `f.write`. -/
structure WriteOp where
  file : FileEntry
  seekPos : Int
  data : List Nat
deriving DecidableEq

/-- Python slice `l[a : b]` for `0 ≤ a ≤ b` (the only shape used by the
assembler, where `a = overlap_start - piece_start ≥ 0`). -/
def pySlice (l : List Nat) (a b : Int) : List Nat :=
  (l.take b.toNat).drop a.toNat

/-- Fuel-bounded CPython `bisect.bisect_left(a, x)` inner loop
(`lo, hi := 0, len(a)`; while `lo < hi`: `mid = (lo+hi)//2`;
if `a[mid] < x` then `lo = mid+1` else `hi = mid`). -/
def bisectLeftGo (a : List Int) (x : Int) : Nat → Nat → Nat → Nat
  | 0, lo, _ => lo
  | fuel + 1, lo, hi =>
    if lo < hi then
      let mid := (lo + hi) / 2
      if a.getD mid 0 < x then bisectLeftGo a x fuel (mid + 1) hi
      else bisectLeftGo a x fuel lo mid
    else lo

/-- `bisect.bisect_left(a, x)` (the interval halves every step, so
`a.length + 1` fuel always suffices). -/
def bisectLeft (a : List Int) (x : Int) : Nat :=
  bisectLeftGo a x (a.length + 1) 0 a.length

/-- The loop body of `assemble_multiple` over the remaining lookup-table
entries, carrying `bytes_written`.  In order: `break` when `file["start"] >=
piece_end`; `continue` when `file["end"] <= piece_start`; compute the
overlap, clamp by the remaining file bytes, `continue` when `write_len <=
0`; otherwise seek to `overlap_start - file["start"]` and write
`piece_data[overlap_start - piece_start : overlap_start - piece_start +
write_len]`; `break` when `bytes_written >= piece_length` after the write. -/
def assembleLoop (pieceStart pieceEnd pieceLength : Int) (pieceData : List Nat) :
    Int → List FileEntry → List WriteOp
  | _, [] => []
  | bw, f :: rest =>
    if pieceEnd ≤ f.start then []
    else if f.stop ≤ pieceStart then
      assembleLoop pieceStart pieceEnd pieceLength pieceData bw rest
    else
      let os := max f.start pieceStart
      let oe := min f.stop pieceEnd
      let ol := oe - os
      let rem := f.length - (os - f.start)
      let wl := min ol rem
      if wl ≤ 0 then assembleLoop pieceStart pieceEnd pieceLength pieceData bw rest
      else
        let w : WriteOp := ⟨f, os - f.start, pySlice pieceData (os - pieceStart) (os - pieceStart + wl)⟩
        if pieceLength ≤ bw + wl then [w]
        else w :: assembleLoop pieceStart pieceEnd pieceLength pieceData (bw + wl) rest

/-- `assemble_multiple(piece_index, piece_data, piece_length)` against the
lookup table (`file_ends_list` is `[file["end"] for file in
file_lookup_table]`, set by `set_global_variables` from the same table):
the sequence of file writes it performs. -/
def assemble_multiple (table : List FileEntry) (pieceIndex pieceLength : Nat)
    (pieceData : List Nat) : List WriteOp :=
  let pieceStart : Int := (pieceIndex : Int) * pieceLength
  let pieceEnd : Int := pieceStart + pieceData.length
  let idx := bisectLeft (table.map FileEntry.stop) pieceStart
  assembleLoop pieceStart pieceEnd pieceLength pieceData 0 (table.drop idx)

/-- Modelled from the spec: the §4.4 multi-file rule — for a file whose
`[start, stop)` interval intersects the piece range (overlap start
`max f.start pieceStart`, overlap end `min f.stop pieceEnd`), write exactly
the overlap at file offset `overlap_start - file.start`; otherwise
nothing. -/
def overlapWrite (pieceStart pieceEnd : Int) (pieceData : List Nat)
    (f : FileEntry) : Option WriteOp :=
  if max f.start pieceStart < min f.stop pieceEnd then
    some ⟨f, max f.start pieceStart - f.start,
      pySlice pieceData (max f.start pieceStart - pieceStart)
        (max f.start pieceStart - pieceStart +
          (min f.stop pieceEnd - max f.start pieceStart))⟩
  else none

/-- Modelled from the spec: the writes §4.4 prescribes for a piece, one per
overlapping file, in table order. -/
def specWrites (pieceStart pieceEnd : Int) (pieceData : List Nat)
    (table : List FileEntry) : List WriteOp :=
  table.filterMap (overlapWrite pieceStart pieceEnd pieceData)

/-- The lookup table is contiguous and non-overlapping starting at absolute
offset `s`: each entry starts where the previous one stopped, with
consistent non-negative length. -/
def contiguousFrom : Int → List FileEntry → Prop
  | _, [] => True
  | s, f :: rest => f.start = s ∧ f.stop = s + f.length ∧ 0 ≤ f.length ∧
      contiguousFrom f.stop rest

/-- End offset of the last file of the table (or `s` for an empty table). -/
def tableEnd : Int → List FileEntry → Int
  | s, [] => s
  | _, f :: rest => tableEnd f.stop rest

theorem contiguousFrom_mem : ∀ {t : List FileEntry} {s : Int},
    contiguousFrom s t → ∀ f ∈ t, f.stop = f.start + f.length ∧ 0 ≤ f.length
  | [], _, _, f, hf => absurd hf (List.not_mem_nil f)
  | g :: rest, s, ⟨hs, hstop, hlen, hrest⟩, f, hf => by
    rcases List.mem_cons.mp hf with rfl | hf
    · exact ⟨by rw [hstop, hs], hlen⟩
    · exact contiguousFrom_mem hrest f hf

theorem contiguousFrom_le_stop : ∀ {t : List FileEntry} {s : Int},
    contiguousFrom s t → ∀ f ∈ t, s ≤ f.stop
  | [], _, _, f, hf => absurd hf (List.not_mem_nil f)
  | g :: rest, s, ⟨hs, hstop, hlen, hrest⟩, f, hf => by
    rcases List.mem_cons.mp hf with rfl | hf
    · omega
    · have := contiguousFrom_le_stop hrest f hf
      omega

theorem bisectLeftGo_lt {a : List Int} {x : Int}
    (hmono : ∀ i j, i ≤ j → j < a.length → a.getD i 0 ≤ a.getD j 0) :
    ∀ (fuel lo hi : Nat), hi ≤ a.length → hi - lo ≤ fuel →
      (∀ j < lo, a.getD j 0 < x) →
      ∀ j < bisectLeftGo a x fuel lo hi, a.getD j 0 < x := by
  intro fuel
  induction fuel with
  | zero =>
    intro lo hi _ _ hpre j hj
    exact hpre j hj
  | succ fuel ih =>
    intro lo hi hhi hfuel hpre j hj
    rw [bisectLeftGo] at hj
    by_cases hlh : lo < hi
    · rw [if_pos hlh] at hj
      by_cases hm : a.getD ((lo + hi) / 2) 0 < x
      · rw [if_pos hm] at hj
        refine ih ((lo + hi) / 2 + 1) hi hhi (by omega) ?_ j hj
        intro k hk
        by_cases hk' : k < lo
        · exact hpre k hk'
        · exact lt_of_le_of_lt (hmono k ((lo + hi) / 2) (by omega) (by omega)) hm
      · rw [if_neg hm] at hj
        exact ih lo ((lo + hi) / 2) (by omega) (by omega) hpre j hj
    · rw [if_neg hlh] at hj
      exact hpre j hj

theorem bisectLeft_lt {a : List Int} {x : Int}
    (hmono : ∀ i j, i ≤ j → j < a.length → a.getD i 0 ≤ a.getD j 0) :
    ∀ j < bisectLeft a x, a.getD j 0 < x := by
  intro j hj
  exact bisectLeftGo_lt hmono (a.length + 1) 0 a.length le_rfl (by omega)
    (by omega) j hj

theorem contiguous_map_stop_mono : ∀ {t : List FileEntry} {s : Int},
    contiguousFrom s t →
    ∀ i j, i ≤ j → j < (t.map FileEntry.stop).length →
      (t.map FileEntry.stop).getD i 0 ≤ (t.map FileEntry.stop).getD j 0 := by
  intro t
  induction t with
  | nil => intro s _ i j _ hj; simp at hj
  | cons f rest ih =>
    intro s hc i j hij hj
    obtain ⟨hs, hstop, hlen, hrest⟩ := hc
    match i, j with
    | 0, 0 => exact le_rfl
    | 0, j + 1 =>
      have hj' : j < rest.length := by simpa using hj
      have hmem : rest[j] ∈ rest := List.getElem_mem hj'
      have hle := contiguousFrom_le_stop hrest _ hmem
      have heq : (rest.map FileEntry.stop).getD j 0 = rest[j].stop := by
        rw [List.getD_eq_getElem?_getD, List.getElem?_map,
          List.getElem?_eq_getElem hj']
        rfl
      simp only [List.map_cons, List.getD_cons_zero, List.getD_cons_succ]
      omega
    | i + 1, j + 1 =>
      simp only [List.map_cons, List.getD_cons_succ]
      exact ih hrest i j (by omega) (by simpa using hj)

theorem take_bisect_no_overlap {t : List FileEntry} {s x : Int}
    (hc : contiguousFrom s t) :
    ∀ f ∈ t.take (bisectLeft (t.map FileEntry.stop) x), f.stop < x := by
  intro f hf
  obtain ⟨j, hj, hget⟩ := List.mem_iff_getElem.mp hf
  have hjt : j < t.length := by
    have := hj
    simp only [List.length_take] at this
    omega
  have hjidx : j < bisectLeft (t.map FileEntry.stop) x := by
    have := hj
    simp only [List.length_take] at this
    omega
  have hlt := bisectLeft_lt (contiguous_map_stop_mono hc) j hjidx
  have hfeq : t[j] = f := by
    rw [← hget]
    exact (List.getElem_take t).symm
  have heq : (t.map FileEntry.stop).getD j 0 = f.stop := by
    rw [List.getD_eq_getElem?_getD, List.getElem?_map,
      List.getElem?_eq_getElem hjt, hfeq]
    rfl
  omega

theorem specWrites_cons_none {ps pe : Int} {data : List Nat} {f : FileEntry}
    (rest : List FileEntry) (h : overlapWrite ps pe data f = none) :
    specWrites ps pe data (f :: rest) = specWrites ps pe data rest := by
  simp only [specWrites, List.filterMap_cons, h]

theorem specWrites_cons_some {ps pe : Int} {data : List Nat} {f : FileEntry}
    {w : WriteOp} (rest : List FileEntry)
    (h : overlapWrite ps pe data f = some w) :
    specWrites ps pe data (f :: rest) = w :: specWrites ps pe data rest := by
  simp only [specWrites, List.filterMap_cons, h]

theorem specWrites_eq_nil {ps pe : Int} {data : List Nat} :
    ∀ {fs : List FileEntry} {s : Int}, contiguousFrom s fs → pe ≤ s →
      specWrites ps pe data fs = []
  | [], _, _, _ => rfl
  | f :: rest, s, ⟨hs, hstop, hlen, hrest⟩, hpe => by
    have hnone : overlapWrite ps pe data f = none := by
      unfold overlapWrite
      rw [if_neg (by omega)]
    rw [specWrites_cons_none rest hnone, specWrites_eq_nil hrest (by omega)]

/-- The loop of `assemble_multiple`, entered at a suffix of the table that
is contiguous from offset `s` with `bytes_written` equal to the part of the
piece already covered by earlier files, produces exactly the writes the
specification prescribes for that suffix. -/
theorem assembleLoop_eq (ps pe plen : Int) (data : List Nat)
    (hple : pe - ps ≤ plen) :
    ∀ (fs : List FileEntry) (s bw : Int), contiguousFrom s fs →
      bw = max 0 (min s pe - ps) →
      assembleLoop ps pe plen data bw fs = specWrites ps pe data fs := by
  intro fs
  induction fs with
  | nil => intro s bw _ _; rfl
  | cons f rest ih =>
    intro s bw hc hbw
    obtain ⟨hs, hstop, hlen, hrest⟩ := hc
    simp only [assembleLoop]
    by_cases h1 : pe ≤ f.start
    · rw [if_pos h1]
      have hnone : overlapWrite ps pe data f = none := by
        unfold overlapWrite
        rw [if_neg (by omega)]
      rw [specWrites_cons_none rest hnone, specWrites_eq_nil hrest (by omega)]
    · rw [if_neg h1]
      by_cases h2 : f.stop ≤ ps
      · rw [if_pos h2]
        have hnone : overlapWrite ps pe data f = none := by
          unfold overlapWrite
          rw [if_neg (by omega)]
        rw [specWrites_cons_none rest hnone]
        exact ih f.stop bw hrest (by omega)
      · rw [if_neg h2]
        by_cases h3 : min (min f.stop pe - max f.start ps)
            (f.length - (max f.start ps - f.start)) ≤ 0
        · rw [if_pos h3]
          have hnone : overlapWrite ps pe data f = none := by
            unfold overlapWrite
            rw [if_neg (by omega)]
          rw [specWrites_cons_none rest hnone]
          exact ih f.stop bw hrest (by omega)
        · rw [if_neg h3]
          have hwl : min (min f.stop pe - max f.start ps)
              (f.length - (max f.start ps - f.start)) =
              min f.stop pe - max f.start ps := by omega
          have hsome : overlapWrite ps pe data f =
              some ⟨f, max f.start ps - f.start,
                pySlice data (max f.start ps - ps)
                  (max f.start ps - ps +
                    (min f.stop pe - max f.start ps))⟩ := by
            unfold overlapWrite
            rw [if_pos (by omega)]
          rw [specWrites_cons_some rest hsome, hwl]
          by_cases h4 : plen ≤ bw + (min f.stop pe - max f.start ps)
          · rw [if_pos h4]
            rw [specWrites_eq_nil hrest (show pe ≤ f.stop by omega)]
          · rw [if_neg h4]
            rw [ih f.stop (bw + (min f.stop pe - max f.start ps)) hrest (by omega)]

theorem pySlice_length {l : List Nat} {a b : Int} (h0 : 0 ≤ a) (hab : a ≤ b)
    (hb : b ≤ (l.length : Int)) : ((pySlice l a b).length : Int) = b - a := by
  simp only [pySlice, List.length_drop, List.length_take]
  omega

theorem pySlice_empty (l : List Nat) (a : Int) : pySlice l a a = [] := by
  apply List.drop_eq_nil_of_le
  simp only [List.length_take]
  exact min_le_left _ _

theorem pySlice_append {l : List Nat} {a b c : Int} (h0 : 0 ≤ a) (hab : a ≤ b)
    (hbc : b ≤ c) (hc : c ≤ (l.length : Int)) :
    pySlice l a b ++ pySlice l b c = pySlice l a c := by
  unfold pySlice
  have htake : l.take b.toNat = (l.take c.toNat).take b.toNat := by
    rw [List.take_take]
    congr 1
    omega
  rw [htake]
  have hm : (l.take c.toNat).length = c.toNat := by
    simp only [List.length_take]
    omega
  have hsplit := List.take_append_drop b.toNat (l.take c.toNat)
  calc ((l.take c.toNat).take b.toNat).drop a.toNat ++ (l.take c.toNat).drop b.toNat
      = (((l.take c.toNat).take b.toNat) ++ (l.take c.toNat).drop b.toNat).drop a.toNat := by
        rw [List.drop_append_of_le_length]
        simp only [List.length_take]
        omega
    _ = (l.take c.toNat).drop a.toNat := by rw [hsplit]

theorem pySlice_full (l : List Nat) : pySlice l 0 (l.length : Int) = l := by
  simp [pySlice]

/-- Every suffix of a contiguous table is contiguous from the start offset
of its first entry. -/
theorem contiguousFrom_suffix : ∀ {t : List FileEntry} {s : Int} (n : Nat)
    {g : FileEntry} {rest : List FileEntry}, contiguousFrom s t →
    t.drop n = g :: rest → contiguousFrom g.start (g :: rest)
  | [], _, n, _, _, _, hdrop => by simp at hdrop
  | f :: tl, s, 0, g, rest, hc, hdrop => by
    obtain ⟨hs, hstop, hlen, hrest⟩ := hc
    simp only [List.drop_zero] at hdrop
    cases hdrop
    exact ⟨rfl, by omega, hlen, hrest⟩
  | f :: tl, s, n + 1, g, rest, hc, hdrop => by
    obtain ⟨hs, hstop, hlen, hrest⟩ := hc
    exact contiguousFrom_suffix n hrest hdrop

/-- If all files before a suffix end at or before `x`, the suffix either is
empty or starts at an offset `≤ x`. -/
theorem suffix_start_le : ∀ {t : List FileEntry} {s x : Int} (n : Nat),
    contiguousFrom s t → s ≤ x → (∀ f ∈ t.take n, f.stop ≤ x) →
    t.drop n = [] ∨ ∃ g rest, t.drop n = g :: rest ∧ g.start ≤ x
  | [], _, _, n, _, _, _ => by simp
  | f :: tl, s, x, 0, hc, hsx, _ => by
    right
    exact ⟨f, tl, rfl, by obtain ⟨hs, _, _, _⟩ := hc; omega⟩
  | f :: tl, s, x, n + 1, hc, hsx, htake => by
    obtain ⟨hs, hstop, hlen, hrest⟩ := hc
    have hf : f.stop ≤ x := htake f (by simp)
    have htl : ∀ g ∈ tl.take n, g.stop ≤ x := by
      intro g hg
      exact htake g (by simp [hg])
    exact suffix_start_le n hrest hf htl

theorem overlapWrite_none_of_stop_le {ps pe : Int} {data : List Nat}
    {f : FileEntry} (h : f.stop ≤ ps) : overlapWrite ps pe data f = none := by
  unfold overlapWrite
  rw [if_neg (by omega)]

/-- `assemble_multiple` performs exactly the writes the specification
prescribes: one write per file overlapping the piece range, equal to the
overlap. -/
theorem assemble_multiple_eq_specWrites (table : List FileEntry)
    (pieceIndex pieceLength : Nat) (pieceData : List Nat)
    (hc : contiguousFrom 0 table)
    (hlen : pieceData.length ≤ pieceLength) :
    assemble_multiple table pieceIndex pieceLength pieceData =
      specWrites ((pieceIndex : Int) * pieceLength)
        ((pieceIndex : Int) * pieceLength + pieceData.length) pieceData table := by
  set ps : Int := (pieceIndex : Int) * pieceLength with hps
  set pe : Int := ps + pieceData.length with hpe
  have hps0 : 0 ≤ ps := by positivity
  set idx := bisectLeft (table.map FileEntry.stop) ps with hidx
  have htake : ∀ f ∈ table.take idx, f.stop ≤ ps := by
    intro f hf
    exact le_of_lt (take_bisect_no_overlap hc f hf)
  have htakenil : specWrites ps pe pieceData (table.take idx) = [] := by
    apply List.filterMap_eq_nil_iff.mpr
    intro f hf
    exact overlapWrite_none_of_stop_le (htake f hf)
  have hsplit : specWrites ps pe pieceData table =
      specWrites ps pe pieceData (table.take idx) ++
        specWrites ps pe pieceData (table.drop idx) := by
    simp only [specWrites]
    rw [← List.filterMap_append, List.take_append_drop]
  rw [hsplit, htakenil, List.nil_append]
  show assembleLoop ps pe (pieceLength : Int) pieceData 0 (table.drop idx) =
    specWrites ps pe pieceData (table.drop idx)
  rcases suffix_start_le idx hc hps0 htake with hnil | ⟨g, rest, hdrop, hgle⟩
  · rw [hnil]
    rfl
  · rw [hdrop]
    have hcsuf := contiguousFrom_suffix idx hc hdrop
    exact assembleLoop_eq ps pe (pieceLength : Int) pieceData (by omega)
      (g :: rest) g.start 0 hcsuf (by omega)

/-- Bounds of the specified writes: the seek offset is inside the file and
the write never extends the file beyond its declared length. -/
theorem specWrites_bounds {table : List FileEntry} {s ps pe : Int}
    {data : List Nat}
    (hc : contiguousFrom s table)
    (hdata : (data.length : Int) = pe - ps) :
    ∀ w ∈ specWrites ps pe data table,
      0 ≤ w.seekPos ∧ (w.seekPos + w.data.length : Int) ≤ w.file.length := by
  intro w hw
  obtain ⟨f, hf, hfw⟩ := List.mem_filterMap.mp hw
  obtain ⟨hstop, hflen⟩ := contiguousFrom_mem hc f hf
  unfold overlapWrite at hfw
  by_cases hcond : max f.start ps < min f.stop pe
  · rw [if_pos hcond] at hfw
    cases hfw
    constructor
    · show (0 : Int) ≤ max f.start ps - f.start
      omega
    · have hslice : ((pySlice data (max f.start ps - ps)
          (max f.start ps - ps + (min f.stop pe - max f.start ps))).length : Int) =
          min f.stop pe - max f.start ps :=
        (pySlice_length (by omega) (by omega) (by omega)).trans (by omega)
      show max f.start ps - f.start +
          ((pySlice data (max f.start ps - ps)
            (max f.start ps - ps + (min f.stop pe - max f.start ps))).length : Int) ≤
          f.length
      omega
  · rw [if_neg hcond] at hfw
    cases hfw

/-- Concatenating the data of the specified writes, in table order,
reproduces the slice of the piece from the first uncovered offset on —
the tiling invariant of the multi-file assembler. -/
theorem specWrites_flatten {ps pe : Int} {data : List Nat}
    (hdata : (data.length : Int) = pe - ps) (hps : 0 ≤ ps) (hpspe : ps ≤ pe) :
    ∀ (fs : List FileEntry) (s : Int), contiguousFrom s fs →
      (pe ≤ tableEnd s fs ∨ pe ≤ max s ps) →
      ((specWrites ps pe data fs).map WriteOp.data).flatten =
        pySlice data (min (max s ps) pe - ps) (pe - ps) := by
  intro fs
  induction fs with
  | nil =>
    intro s _ hcov
    have : min (max s ps) pe = pe := by
      rcases hcov with h | h
      · simp only [tableEnd] at h
        omega
      · omega
    rw [this]
    have := pySlice_empty data (pe - ps)
    simp [specWrites, this]
  | cons f rest ih =>
    intro s hc hcov
    obtain ⟨hs, hstop, hlen, hrest⟩ := hc
    have hcov' : pe ≤ tableEnd f.stop rest ∨ pe ≤ max f.stop ps := by
      rcases hcov with h | h
      · left
        simpa [tableEnd] using h
      · right
        omega
    by_cases hcond : max f.start ps < min f.stop pe
    · have hsome : overlapWrite ps pe data f =
          some ⟨f, max f.start ps - f.start,
            pySlice data (max f.start ps - ps)
              (max f.start ps - ps + (min f.stop pe - max f.start ps))⟩ := by
        unfold overlapWrite
        rw [if_pos hcond]
      rw [specWrites_cons_some rest hsome]
      simp only [List.map_cons, List.flatten_cons]
      rw [ih f.stop hrest hcov']
      have h1 : max f.start ps - ps + (min f.stop pe - max f.start ps) =
          min f.stop pe - ps := by ring
      have h2 : min (max f.stop ps) pe = min f.stop pe := by omega
      have h3 : min (max s ps) pe = max f.start ps := by omega
      rw [h1, h2, h3]
      exact pySlice_append (by omega) (by omega) (by omega) (by omega)
    · have hnone : overlapWrite ps pe data f = none := by
        unfold overlapWrite
        rw [if_neg hcond]
      rw [specWrites_cons_none rest hnone]
      rw [ih f.stop hrest ?_]
      · congr 1
        omega
      · rcases hcov' with h | h
        · exact Or.inl h
        · exact Or.inr h

/-- **C4.** For every multi-file torrent with a contiguous, non-overlapping
file map and every piece whose bytes fit the remaining stream
(`actual_length`), `assemble_multiple` writes each byte of the piece to
exactly one file position: its writes are exactly one write per file whose
`[start, end)` interval intersects the piece range, placing the overlap at
file offset `overlap_start - file.start`; no other file is touched, no file
is ever extended beyond its declared length, and the written slices
concatenate back to the piece.  This covers the short last piece and pieces
straddling more than two files. -/
theorem C4_multi_file_assembly (table : List FileEntry)
    (pieceIndex pieceLength : Nat) (pieceData : List Nat)
    (hc : contiguousFrom 0 table)
    (hlen : pieceData.length ≤ pieceLength)
    (hin : (pieceIndex : Int) * pieceLength + pieceData.length ≤ tableEnd 0 table) :
    assemble_multiple table pieceIndex pieceLength pieceData =
      specWrites ((pieceIndex : Int) * pieceLength)
        ((pieceIndex : Int) * pieceLength + pieceData.length) pieceData table ∧
    (∀ w ∈ assemble_multiple table pieceIndex pieceLength pieceData,
      0 ≤ w.seekPos ∧ (w.seekPos + w.data.length : Int) ≤ w.file.length) ∧
    ((assemble_multiple table pieceIndex pieceLength pieceData).map
      WriteOp.data).flatten = pieceData := by
  have h1 := assemble_multiple_eq_specWrites table pieceIndex pieceLength pieceData hc hlen
  have hps0 : (0 : Int) ≤ (pieceIndex : Int) * pieceLength := by positivity
  refine ⟨h1, ?_, ?_⟩
  · rw [h1]
    exact specWrites_bounds hc (by ring)
  · rw [h1]
    have hfl := @specWrites_flatten ((pieceIndex : Int) * pieceLength)
      ((pieceIndex : Int) * pieceLength + pieceData.length) pieceData
      (by ring) hps0 (le_add_of_nonneg_right (by positivity))
      table 0 hc (Or.inl hin)
    rw [hfl]
    have hmin : min (max 0 ((pieceIndex : Int) * pieceLength))
        ((pieceIndex : Int) * pieceLength + pieceData.length) -
        (pieceIndex : Int) * pieceLength = 0 := by
      omega
    have hsub : ((pieceIndex : Int) * pieceLength + pieceData.length) -
        (pieceIndex : Int) * pieceLength = (pieceData.length : Int) := by ring
    rw [hmin, hsub]
    exact pySlice_full pieceData

/-- First file of the witness table: 1 byte at offsets `[0, 1)`. -/
def c4File1 : FileEntry := ⟨0, 1, 1, 0⟩

/-- Second file of the witness table: 1 byte at offsets `[1, 2)`. -/
def c4File2 : FileEntry := ⟨1, 2, 1, 1⟩

/-- Third file of the witness table: 2 bytes at offsets `[2, 4)`. -/
def c4File3 : FileEntry := ⟨2, 4, 2, 2⟩

/-- Witness lookup table: three contiguous files of lengths 1, 1, 2. -/
def c4Table : List FileEntry := [c4File1, c4File2, c4File3]

/-- Witness for C4 at a concrete input: a 4-byte piece straddling all three
files is split into writes `[65]`, `[66]`, `[67, 68]` at file offset 0 of
each file, and the slices concatenate back to the piece. -/
theorem C4_multi_file_assembly_witness :
    assemble_multiple c4Table 0 4 [65, 66, 67, 68] =
      [⟨c4File1, 0, [65]⟩, ⟨c4File2, 0, [66]⟩, ⟨c4File3, 0, [67, 68]⟩] ∧
    ((assemble_multiple c4Table 0 4 [65, 66, 67, 68]).map
      WriteOp.data).flatten = [65, 66, 67, 68] :=
  ⟨by decide,
   (C4_multi_file_assembly c4Table 0 4 [65, 66, 67, 68]
     (by norm_num [contiguousFrom, c4Table, c4File1, c4File2, c4File3])
     (by decide) (by decide)).2.2⟩

/-! ## `tracker_request.py` — announce retry/failover (claim C5)

`get_peers` builds the tracker URL list (primary `announce` first, then the
flattened `announce-list` tiers, skipping empty strings), then runs
`for tracker in trackers: for attempt in range(1, max_retries + 1): ...`
returning at the first successful response, sleeping `retry_delay` between
attempts of the same tracker, and falling through to the `for`-`else`
branch — a fatal `exit()` — only when every attempt of every tracker
failed.  The network is abstracted as an oracle `resp tracker attempt`. -/

/-- Observable scheduling events of the tracker loop. -/
inductive TrackerEvent (τ : Type) where
  | attempt (tracker : τ) (attemptNo : Nat)
  | sleep

/-- The tracker URL list built at the top of `get_peers`: the primary
`announce` URL first, then every URL of every `announce-list` tier in
listed order, skipping empty strings. -/
def buildTrackers (announce : List Nat) (announceList : List (List (List Nat))) :
    List (List Nat) :=
  [announce] ++ announceList.flatMap (fun urlList => urlList.filter (fun url => url ≠ []))

/-- The inner attempt loop `for attempt in range(1, max_retries + 1)` of
`get_peers` for one tracker, iterating over the list of attempt numbers:
on success return the response; on failure sleep `retry_delay` seconds if
`attempt < max_retries`, otherwise give up on this tracker. -/
def tryTrackerGo {τ R : Type} (resp : τ → Nat → Option R) (maxRetries : Nat)
    (tr : τ) : List Nat → List (TrackerEvent τ) × Option (Nat × R)
  | [] => ([], none)
  | a :: rest =>
    match resp tr a with
    | some r => ([.attempt tr a], some (a, r))
    | none =>
      if a < maxRetries then
        let nxt := tryTrackerGo resp maxRetries tr rest
        (.attempt tr a :: .sleep :: nxt.1, nxt.2)
      else ([.attempt tr a], none)

/-- All attempts of `get_peers` on a single tracker
(`range(1, max_retries + 1)` is `List.range' 1 maxRetries`). -/
def tryTracker {τ R : Type} (resp : τ → Nat → Option R) (maxRetries : Nat)
    (tr : τ) : List (TrackerEvent τ) × Option (Nat × R) :=
  tryTrackerGo resp maxRetries tr (List.range' 1 maxRetries)

/-- The outer tracker loop of `get_peers`: first success returns; when the
loop completes with no success the `for`-`else` branch calls `exit()`
(modelled as `.error`). -/
def getPeersGo {τ R : Type} (resp : τ → Nat → Option R) (maxRetries : Nat) :
    List τ → List (TrackerEvent τ) × Except Unit (τ × Nat × R)
  | [] => ([], .error ())
  | tr :: rest =>
    match tryTracker resp maxRetries tr with
    | (evs, some (a, r)) => (evs, .ok (tr, a, r))
    | (evs, none) =>
      let nxt := getPeersGo resp maxRetries rest
      (evs ++ nxt.1, nxt.2)

/-- `get_peers(metadata, peer_id, max_retries, retry_delay)`: the tracker
attempt schedule and its outcome, over the tracker list built from the
metainfo. -/
def get_peers {R : Type} (resp : List Nat → Nat → Option R)
    (announce : List Nat) (announceList : List (List (List Nat)))
    (maxRetries : Nat) : List (TrackerEvent (List Nat)) × Except Unit (List Nat × Nat × R) :=
  getPeersGo resp maxRetries (buildTrackers announce announceList)

/-- Modelled from the spec: the lexicographic attempt grid — every tracker
in list order, each with attempt numbers `1..max_retries`. -/
def lexGrid {τ : Type} (trackers : List τ) (maxRetries : Nat) : List (τ × Nat) :=
  trackers.flatMap (fun tr => (List.range' 1 maxRetries).map (fun a => (tr, a)))

/-- Prefix of a list up to and including the first element satisfying `p`
(the whole list if none does). -/
def takeThrough {α : Type} (p : α → Bool) : List α → List α
  | [] => []
  | x :: xs => if p x then [x] else x :: takeThrough p xs

/-- Modelled from the spec: expand a schedule of (tracker, attempt) pairs
into events — each attempt, followed by a `retry_delay` sleep exactly when
the attempt failed and was not the tracker's last one. -/
def expandEvents {τ R : Type} (resp : τ → Nat → Option R) (maxRetries : Nat)
    (ps : List (τ × Nat)) : List (TrackerEvent τ) :=
  ps.flatMap (fun p => .attempt p.1 p.2 ::
    (if (resp p.1 p.2).isNone ∧ p.2 < maxRetries then [.sleep] else []))

/-- Whether an attempt pair succeeds under the oracle. -/
def attemptOk {τ R : Type} (resp : τ → Nat → Option R) (p : τ × Nat) : Bool :=
  (resp p.1 p.2).isSome

theorem expandEvents_append {τ R : Type} (resp : τ → Nat → Option R)
    (maxRetries : Nat) (ps qs : List (τ × Nat)) :
    expandEvents resp maxRetries (ps ++ qs) =
      expandEvents resp maxRetries ps ++ expandEvents resp maxRetries qs :=
  List.flatMap_append ps qs _

/-- Modelled from the spec: the outcome of the announce — the first
successful attempt in grid order, or a fatal error when every attempt on
every tracker failed. -/
def specResult {τ R : Type} (resp : τ → Nat → Option R) (trackers : List τ)
    (maxRetries : Nat) : Except Unit (τ × Nat × R) :=
  match ((lexGrid trackers maxRetries).find? (attemptOk resp)).bind
      (fun p => (resp p.1 p.2).map (fun r => (p.1, p.2, r))) with
  | some x => .ok x
  | none => .error ()

theorem takeThrough_of_none {α : Type} {p : α → Bool} :
    ∀ {xs : List α}, xs.find? p = none → takeThrough p xs = xs
  | [], _ => rfl
  | x :: xs, h => by
    by_cases hx : p x = true
    · rw [List.find?_cons_of_pos xs hx] at h
      exact Option.noConfusion h
    · rw [List.find?_cons_of_neg xs hx] at h
      simp [takeThrough, hx, takeThrough_of_none h]

theorem takeThrough_append_left {α : Type} {p : α → Bool} :
    ∀ {xs : List α} (ys : List α) {x : α}, xs.find? p = some x →
      takeThrough p (xs ++ ys) = takeThrough p xs
  | [], _, _, h => Option.noConfusion h
  | x' :: xs, ys, x, h => by
    by_cases hx : p x' = true
    · simp [takeThrough, hx]
    · rw [List.find?_cons_of_neg xs hx] at h
      simp [takeThrough, hx, takeThrough_append_left ys h]

theorem takeThrough_append_right {α : Type} {p : α → Bool} :
    ∀ {xs : List α} (ys : List α), xs.find? p = none →
      takeThrough p (xs ++ ys) = xs ++ takeThrough p ys
  | [], ys, _ => rfl
  | x :: xs, ys, h => by
    by_cases hx : p x = true
    · rw [List.find?_cons_of_pos xs hx] at h
      exact Option.noConfusion h
    · rw [List.find?_cons_of_neg xs hx] at h
      simp [takeThrough, hx, takeThrough_append_right ys h]

/-- The inner attempt loop matches the spec's schedule for the attempt
numbers `a, a+1, …, maxRetries`. -/
theorem tryTrackerGo_spec {τ R : Type} (resp : τ → Nat → Option R)
    (maxRetries : Nat) (tr : τ) :
    ∀ (n a : Nat), a + n = maxRetries + 1 →
      tryTrackerGo resp maxRetries tr (List.range' a n) =
        (expandEvents resp maxRetries
          (takeThrough (attemptOk resp) ((List.range' a n).map (fun x => (tr, x)))),
         (((List.range' a n).map (fun x => (tr, x))).find? (attemptOk resp)).bind
           (fun p => (resp p.1 p.2).map (fun r => (p.2, r)))) := by
  intro n
  induction n with
  | zero => intro a _; rfl
  | succ n ih =>
    intro a ha
    rw [List.range'_succ]
    match hresp : resp tr a with
    | some r =>
      have hok : attemptOk resp (tr, a) = true := by simp [attemptOk, hresp]
      have hL : tryTrackerGo resp maxRetries tr (a :: List.range' (a + 1) n) =
          ([.attempt tr a], some (a, r)) := by
        simp [tryTrackerGo, hresp]
      have hT : takeThrough (attemptOk resp)
          ((a :: List.range' (a + 1) n).map (fun x => (tr, x))) = [(tr, a)] := by
        simp [takeThrough, hok]
      have hF : ((a :: List.range' (a + 1) n).map (fun x => (tr, x))).find?
          (attemptOk resp) = some (tr, a) := by
        rw [List.map_cons]
        exact List.find?_cons_of_pos _ hok
      rw [hL, hT, hF]
      simp [expandEvents, hresp]
    | none =>
      have hok : attemptOk resp (tr, a) = false := by simp [attemptOk, hresp]
      have hT : takeThrough (attemptOk resp)
          ((a :: List.range' (a + 1) n).map (fun x => (tr, x))) =
          (tr, a) :: takeThrough (attemptOk resp)
            ((List.range' (a + 1) n).map (fun x => (tr, x))) := by
        simp [takeThrough, hok]
      have hF : ((a :: List.range' (a + 1) n).map (fun x => (tr, x))).find?
          (attemptOk resp) =
          ((List.range' (a + 1) n).map (fun x => (tr, x))).find?
            (attemptOk resp) := by
        rw [List.map_cons]
        exact List.find?_cons_of_neg _ (by simp [hok])
      by_cases hlt : a < maxRetries
      · have ih' := ih (a + 1) (by omega)
        have hL : tryTrackerGo resp maxRetries tr (a :: List.range' (a + 1) n) =
            (.attempt tr a :: .sleep ::
              (tryTrackerGo resp maxRetries tr (List.range' (a + 1) n)).1,
             (tryTrackerGo resp maxRetries tr (List.range' (a + 1) n)).2) := by
          simp [tryTrackerGo, hresp, hlt]
        rw [hL, ih', hT, hF]
        simp [expandEvents, hresp, hlt]
      · have hn : n = 0 := by omega
        subst hn
        have hL : tryTrackerGo resp maxRetries tr (a :: List.range' (a + 1) 0) =
            ([.attempt tr a], none) := by
          simp [tryTrackerGo, hresp, hlt]
        rw [hL, hT, hF]
        simp [expandEvents, hresp, hlt, takeThrough]

/-- The full tracker loop matches the spec's lexicographic schedule. -/
theorem getPeersGo_spec {τ R : Type} (resp : τ → Nat → Option R)
    (maxRetries : Nat) :
    ∀ trackers : List τ,
      getPeersGo resp maxRetries trackers =
        (expandEvents resp maxRetries
          (takeThrough (attemptOk resp) (lexGrid trackers maxRetries)),
         specResult resp trackers maxRetries) := by
  intro trackers
  induction trackers with
  | nil => rfl
  | cons tr rest ih =>
    have hinner := tryTrackerGo_spec resp maxRetries tr maxRetries 1 (by omega)
    have hgrid : lexGrid (tr :: rest) maxRetries =
        ((List.range' 1 maxRetries).map (fun x => (tr, x))) ++
          lexGrid rest maxRetries := by
      simp [lexGrid]
    match hfind : (((List.range' 1 maxRetries).map (fun x => (tr, x))).find?
        (attemptOk resp)) with
    | some p =>
      have hp : attemptOk resp p = true := List.find?_some hfind
      have hp1 : p.1 = tr := by
        have hmem : p ∈ (List.range' 1 maxRetries).map (fun x => (tr, x)) :=
          List.mem_of_find?_eq_some hfind
        obtain ⟨x, _, hx⟩ := List.mem_map.mp hmem
        rw [← hx]
      obtain ⟨r, hr⟩ := Option.isSome_iff_exists.mp (by simpa [attemptOk] using hp)
      have hresult : tryTracker resp maxRetries tr =
          (expandEvents resp maxRetries
            (takeThrough (attemptOk resp)
              ((List.range' 1 maxRetries).map (fun x => (tr, x)))),
           some (p.2, r)) := by
        rw [tryTracker, hinner, hfind]
        simp [hr]
      have hr' : resp tr p.2 = some r := hp1 ▸ hr
      have hspec : specResult resp (tr :: rest) maxRetries =
          .ok (tr, p.2, r) := by
        rw [specResult, hgrid, List.find?_append, hfind]
        simp [Option.or, hp1, hr']
      rw [getPeersGo, hresult]
      dsimp only
      rw [hgrid, takeThrough_append_left _ hfind, hspec]
    | none =>
      have hresult : tryTracker resp maxRetries tr =
          (expandEvents resp maxRetries
            (takeThrough (attemptOk resp)
              ((List.range' 1 maxRetries).map (fun x => (tr, x)))),
           none) := by
        rw [tryTracker, hinner, hfind]
        rfl
      have hspec : specResult resp (tr :: rest) maxRetries =
          specResult resp rest maxRetries := by
        rw [specResult, specResult, hgrid, List.find?_append, hfind, Option.none_or]
      rw [getPeersGo, hresult, ih]
      dsimp only
      rw [takeThrough_of_none hfind, hgrid, takeThrough_append_right _ hfind,
        hspec, expandEvents_append]

/-- **C5.** The tracker announce iterates tracker URLs in the order the
metainfo stage produces (primary `announce` first, then `announce-list`
tiers flattened in order), attempts each tracker with attempt numbers
`1..max_retries` sleeping `retry_delay` between a failed non-final attempt
and the next, stops at the first successful response (no later attempt or
tracker is contacted), and reports a fatal error — terminating the engine —
exactly when every attempt on every tracker failed. -/
theorem C5_tracker_retry_failover {R : Type} (resp : List Nat → Nat → Option R)
    (announce : List Nat) (announceList : List (List (List Nat)))
    (maxRetries : Nat) :
    get_peers resp announce announceList maxRetries =
      (expandEvents resp maxRetries
        (takeThrough (attemptOk resp)
          (lexGrid (buildTrackers announce announceList) maxRetries)),
       specResult resp (buildTrackers announce announceList) maxRetries) :=
  getPeersGo_spec resp maxRetries (buildTrackers announce announceList)

/-! ## `tracker_request.py` — UDP announce packet (claim C6)

`get_response_udp(tracker_url, …, port=6881, …)` first parses the tracker
URL: it strips `udp://`, truncates at the first `/`, then executes
`host, port_str = tracker_url.split(':')` followed by `port = int(port_str)`
— **overwriting the `port` parameter** (the client's listening port chosen
in `[6881, 6889]` by `get_peers`) with the tracker's own port.  The 98-byte
announce packet `struct.pack(">QLL20s20sQQQLLLLH", …)` then carries that
URL port in its final u16 field. -/

/-- `struct.pack "20s"`: truncate or zero-pad a byte string to 20 bytes. -/
def pad20 (s : List Nat) : List Nat := (s ++ List.replicate 20 0).take 20

/-- Parse a `udp://host:port[/…]` tracker URL as `get_response_udp` does:
check the `udp://` prefix, drop it, truncate at the first `/`, split at the
colon (`host, port_str = tracker_url.split(':')` requires exactly one
colon), and convert the port digits with `int`. -/
def parseUdpUrl (url : List Nat) : Option (List Nat × Nat) :=
  if url.take 6 = [117, 100, 112, 58, 47, 47] then
    let hostport := (url.drop 6).takeWhile (fun b => b ≠ 47)
    let host := hostport.takeWhile (fun b => b ≠ 58)
    match hostport.dropWhile (fun b => b ≠ 58) with
    | 58 :: portStr =>
      if portStr ≠ [] ∧ portStr.all isDigit then
        some (host, digitsVal portStr)
      else none
    | _ => none
  else none

/-- The 98-byte UDP announce packet
`struct.pack(">QLL20s20sQQQLLLLH", connection_id, 1, transaction_id,
info_hash, peer_id, downloaded, left, uploaded, event, 0, key, num_want,
port)`, all fields big-endian. -/
def udpAnnouncePacket (connectionId transactionId : Nat)
    (infoHash peerId : List Nat) (downloaded left uploaded : Nat)
    (event key numWant port : Nat) : List Nat :=
  be64 connectionId ++ be32 1 ++ be32 transactionId ++
    pad20 infoHash ++ pad20 peerId ++
    be64 downloaded ++ be64 left ++ be64 uploaded ++
    be32 event ++ be32 0 ++ be32 key ++ be32 numWant ++ be16 port

/-- The announce packet `get_response_udp` sends for `trackerUrl` when the
caller passes listening port `callerPort`: the local variable `port` is
rebound to `int(port_str)` parsed from the URL before the packet is packed,
so the packed u16 is the tracker's URL port, and `callerPort` is unused
from that point on.  `get_peers` calls this with `event = 0` and
`num_want = 4294967295` (the defaults). -/
def get_response_udp_announce (trackerUrl : List Nat)
    (infoHash peerId : List Nat) (downloaded left uploaded : Nat)
    (callerPort : Nat) (connectionId transactionId key : Nat) :
    Option (List Nat) :=
  match parseUdpUrl trackerUrl with
  | none => none
  | some (_host, urlPort) =>
    some (udpAnnouncePacket connectionId transactionId infoHash peerId
      downloaded left uploaded 0 key 4294967295 urlPort)

/-- `"udp://tracker.example.com:1337"` as bytes. -/
def c6Url : List Nat :=
  [117, 100, 112, 58, 47, 47,
   116, 114, 97, 99, 107, 101, 114, 46, 101, 120, 97, 109, 112, 108, 101,
   46, 99, 111, 109, 58, 49, 51, 51, 55]

/-- Witness 20-byte info hash for the C6 packet. -/
def c6InfoHash : List Nat := List.replicate 20 1

/-- Witness 20-byte peer id for the C6 packet. -/
def c6PeerId : List Nat := List.replicate 20 2

/-- **C6.** The UDP announce packet is 98 bytes, packed big-endian with the
specified field order — but its final u16 field is **not** the client's
listening port passed by the caller (6881): it is the port parsed from the
tracker URL (1337), because `port = int(port_str)` overwrites the `port`
parameter before packing. -/
theorem C6_announce_packet_port :
    get_response_udp_announce c6Url c6InfoHash c6PeerId 0 0 0 6881 99 7 5 =
      some (be64 99 ++ be32 1 ++ be32 7 ++ pad20 c6InfoHash ++ pad20 c6PeerId ++
        be64 0 ++ be64 0 ++ be64 0 ++ be32 0 ++ be32 0 ++ be32 5 ++
        be32 4294967295 ++ be16 1337) ∧
    (get_response_udp_announce c6Url c6InfoHash c6PeerId 0 0 0 6881 99 7 5).map
      List.length = some 98 ∧
    (get_response_udp_announce c6Url c6InfoHash c6PeerId 0 0 0 6881 99 7 5).map
      (fun pkt => pkt.drop 96) = some (be16 1337) ∧
    be16 1337 ≠ be16 6881 := by
  refine ⟨rfl, ?_, ?_, ?_⟩ <;> decide

/-! ## `peer_connection.py` — per-peer piece download session

`download_piece` connects, handshakes, exchanges messages until `unchoke`,
gates on the peer's bitfield, pipelines block requests, reassembles the
received blocks, and hash-verifies the result.  The network is abstracted
as: two booleans for connect/handshake success, the framed message list
read during negotiation, and the framed message list read while receiving
blocks; reaching the end of a message list models the read timeout. -/

/-- Framed peer messages read during the negotiation loop of
`exchange_messages`: keep-alives (length 0) or a message id with its
payload. -/
inductive EMsg where
  | keepAlive
  | msg (mid : Nat) (payload : List Nat)

/-- Framed peer messages read by `receive_piece`: keep-alives, `piece`
(id 7) messages `piece_index(4)|offset(4)|data`, or any other id (payload
discarded). -/
inductive RecvMsg where
  | keepAlive
  | piece (idx off : Nat) (data : List Nat)
  | other (mid : Nat)
deriving DecidableEq

/-- The bitfield unpacking of `exchange_messages`:
`[(byte >> (7 - i)) & 1 for byte in bitfield_bytes for i in range(8)]` —
a boolean (0/1) sequence of length `8 * N`, MSB-first within each byte. -/
def unpackBitfield (payload : List Nat) : List Nat :=
  payload.flatMap (fun byte => (List.range 8).map (fun i => (byte >>> (7 - i)) &&& 1))

/-- The `have` handling of `exchange_messages`: extend the bitfield with
zeros so index `idx` exists, then set that bit to 1. -/
def haveExtend (bf : List Nat) (idx : Nat) : List Nat :=
  (if bf.length ≤ idx then bf ++ List.replicate (idx + 1 - bf.length) 0 else bf).set idx 1

/-- The negotiation loop of `exchange_messages` over the framed messages
read from the peer, carrying the current bitfield: `bitfield (id 5)`
replaces the availability, `unchoke (id 1)` returns it, `have (id 4,
length 5)` extends and sets one bit, everything else is discarded.
Exhausting the messages models the 15-second timeout, which returns
`(False, [])`. -/
def exchange_messages : List EMsg → List Nat → Bool × List Nat
  | [], _ => (false, [])
  | m :: rest, bf =>
    match m with
    | .keepAlive => exchange_messages rest bf
    | .msg 5 payload => exchange_messages rest (unpackBitfield payload)
    | .msg 1 _ => (true, bf)
    | .msg 4 payload =>
      if payload.length = 4 then exchange_messages rest (haveExtend bf (beVal payload))
      else exchange_messages rest bf
    | .msg _ _ => exchange_messages rest bf

/-- `actual_length` as computed in `request_piece`/`receive_piece` from the
call-site dictionary `{"total_length": total_length, "piece count":
ceil(total_length / piece_length)}`: the last piece is
`total_length - piece_index * piece_length`, all others `piece_length`.
(The comparison is over Python's signed integers; subtractions are
non-negative whenever `piece_length > 0`.) -/
def actualLength (pieceIndex pieceLength totalLength : Nat) : Nat :=
  let pieceCount := (totalLength + pieceLength - 1) / pieceLength
  if (pieceIndex : Int) = (pieceCount : Int) - 1 then
    totalLength - pieceIndex * pieceLength
  else pieceLength

/-- The block loop of `request_piece`:
`for offset in range(0, actual_length, block_size)` with
`this_block_size = min(block_size, actual_length - offset)` and
`block_size = 2**14 = 16384` (fuel-bounded; `actual_length` fuel always
suffices since each step advances by 16384). -/
def requestBlocksGo (actual : Nat) : Nat → Nat → List (Nat × Nat)
  | 0, _ => []
  | fuel + 1, offset =>
    if offset < actual then
      (offset, min 16384 (actual - offset)) :: requestBlocksGo actual fuel (offset + 16384)
    else []

/-- `request_piece(writer, piece_index, piece_length, metadata)`: the
`(offset, length)` pairs of the `request` messages sent, in emission
order. -/
def request_piece (pieceIndex pieceLength totalLength : Nat) : List (Nat × Nat) :=
  requestBlocksGo (actualLength pieceIndex pieceLength totalLength)
    (actualLength pieceIndex pieceLength totalLength) 0

/-- The 17-byte wire form of one block request:
`struct.pack(">IBIII", 13, 6, piece_index, offset, this_block_size)`. -/
def requestMessage (pieceIndex offset size : Nat) : List Nat :=
  be32 13 ++ [6] ++ be32 pieceIndex ++ be32 offset ++ be32 size

/-- Sum of the lengths of the stored blocks:
`sum(len(block) for block in received_blocks.values())`. -/
def sumLens (m : List (Nat × List Nat)) : Nat := (m.map (fun p => p.2.length)).sum

/-- `received_blocks[begin] = block_data` on the stored block map.  The
Python `dict` is observed only through `sorted(received_blocks)`, so it is
modelled as an association list kept sorted by offset, with assignment
replacing an existing key. -/
def insertSorted (off : Nat) (data : List Nat) :
    List (Nat × List Nat) → List (Nat × List Nat)
  | [] => [(off, data)]
  | (o, d) :: rest =>
    if off < o then (off, data) :: (o, d) :: rest
    else if off = o then (off, data) :: rest
    else (o, d) :: insertSorted off data rest

/-- The receive loop of `receive_piece`: while the stored blocks sum to
fewer than `actual_length` bytes, read a message; keep-alives and non-piece
ids are skipped, `piece` messages for a different index are discarded,
matching ones are stored by offset (last write wins).  Exhausting the
messages models the 10-second read timeout (`none`, which `receive_piece`
turns into `b''`). -/
def receiveLoop (pieceIndex actual : Nat) :
    List RecvMsg → List (Nat × List Nat) → Option (List (Nat × List Nat))
  | msgs, blocks =>
    if actual ≤ sumLens blocks then some blocks
    else
      match msgs with
      | [] => none
      | m :: rest =>
        match m with
        | .keepAlive => receiveLoop pieceIndex actual rest blocks
        | .piece idx off data =>
          if idx = pieceIndex then
            receiveLoop pieceIndex actual rest (insertSorted off data blocks)
          else receiveLoop pieceIndex actual rest blocks
        | .other _ => receiveLoop pieceIndex actual rest blocks

/-- `receive_piece(reader, piece_index, piece_length, metadata)`: the bytes
returned — the stored blocks joined in ascending offset order on success,
`b''` (empty) on timeout. -/
def receive_piece (pieceIndex pieceLength totalLength : Nat)
    (msgs : List RecvMsg) : List Nat :=
  match receiveLoop pieceIndex (actualLength pieceIndex pieceLength totalLength)
      msgs [] with
  | none => []
  | some blocks => (blocks.map Prod.snd).flatten

/-- `verify_piece(piece_data, expected_hash)`:
`hashlib.sha1(piece_data).digest() == expected_hash`. -/
def verify_piece (pieceData expectedHash : List Nat) : Bool :=
  sha1 pieceData = expectedHash

/-- `download_piece(...)`: the whole session pipeline — connect, handshake,
negotiate, bitfield gate, request, receive, verify.  Returns the piece
bytes (or `none`) together with the `(offset, length)` block requests that
were sent to the peer (empty when the session never reached the request
stage). -/
def download_piece (connectOk handshakeOk : Bool) (negMsgs : List EMsg)
    (recvMsgs : List RecvMsg) (pieceIndex pieceLength totalLength : Nat)
    (expectedHash : List Nat) : Option (List Nat) × List (Nat × Nat) :=
  if ¬connectOk then (none, [])
  else if ¬handshakeOk then (none, [])
  else
    match exchange_messages negMsgs [] with
    | (false, _) => (none, [])
    | (true, bitfield) =>
      if pieceIndex ≥ bitfield.length ∨ bitfield.getD pieceIndex 0 = 0 then
        (none, [])
      else
        let requests := request_piece pieceIndex pieceLength totalLength
        let pieceData := receive_piece pieceIndex pieceLength totalLength recvMsgs
        if pieceData = [] then (none, requests)
        else if verify_piece pieceData expectedHash then (some pieceData, requests)
        else (none, requests)

theorem getD_range_map (f : Nat → Nat) {n j : Nat} (h : j < n) :
    ((List.range n).map f).getD j 0 = f j := by
  rw [List.getD_eq_getElem?_getD, List.getElem?_map, List.getElem?_range h]
  rfl

theorem unpackBitfield_cons (b : Nat) (rest : List Nat) :
    unpackBitfield (b :: rest) =
      ((List.range 8).map (fun i => (b >>> (7 - i)) &&& 1)) ++
        unpackBitfield rest := rfl

theorem unpackBitfield_length (payload : List Nat) :
    (unpackBitfield payload).length = 8 * payload.length := by
  induction payload with
  | nil => rfl
  | cons b rest ih =>
    rw [unpackBitfield_cons, List.length_append, ih]
    simp only [List.length_map, List.length_range, List.length_cons]
    ring

theorem unpackBitfield_getD (payload : List Nat) :
    ∀ j < 8 * payload.length,
      (unpackBitfield payload).getD j 0 =
        (payload.getD (j / 8) 0 >>> (7 - j % 8)) &&& 1 := by
  induction payload with
  | nil => intro j hj; simp at hj
  | cons b rest ih =>
    intro j hj
    rw [unpackBitfield_cons]
    by_cases h8 : j < 8
    · rw [List.getD_append _ _ _ _ (by simp [h8])]
      rw [getD_range_map _ h8]
      have h1 : j / 8 = 0 := by omega
      have h2 : j % 8 = j := by omega
      rw [h1, h2]
      rfl
    · rw [List.getD_append_right _ _ _ _
        (by simp only [List.length_map, List.length_range]; omega)]
      have hlen : ((List.range 8).map (fun i => (b >>> (7 - i)) &&& 1)).length = 8 := by
        simp
      rw [hlen]
      have hrec := ih (j - 8) (by simp only [List.length_cons] at hj; omega)
      rw [hrec]
      have h1 : (j - 8) / 8 = j / 8 - 1 := by omega
      have h2 : (j - 8) % 8 = j % 8 := by omega
      have h3 : (b :: rest).getD (j / 8) 0 = rest.getD (j / 8 - 1) 0 := by
        have hdiv : j / 8 = (j / 8 - 1) + 1 := by omega
        rw [hdiv, List.getD_cons_succ]
        simp
      rw [h1, h2, h3]

/-- **C8.** A bitfield message with an `N`-byte payload is unpacked into a
0/1 sequence of length `N*8`, MSB-first within each byte (bit `j` comes
from bit `7 - j % 8` of payload byte `j / 8`); a `have` message extends the
sequence as needed and sets exactly the named bit; and whenever the
availability after negotiation has bit `piece_index` equal to 0 (or is too
short to contain it), `download_piece` returns none having sent no request
message to the peer. -/
theorem C8_bitfield_unpack_and_gating (payload bf : List Nat) (idx : Nat) :
    ((unpackBitfield payload).length = 8 * payload.length ∧
      ∀ j < 8 * payload.length,
        (unpackBitfield payload).getD j 0 =
          (payload.getD (j / 8) 0 >>> (7 - j % 8)) &&& 1) ∧
    ((haveExtend bf idx).length = max bf.length (idx + 1) ∧
      (haveExtend bf idx).getD idx 0 = 1 ∧
      ∀ j, j ≠ idx → (haveExtend bf idx).getD j 0 = bf.getD j 0) ∧
    (∀ (connectOk handshakeOk : Bool) (negMsgs : List EMsg)
        (recvMsgs : List RecvMsg) (pieceIndex pieceLength totalLength : Nat)
        (expectedHash : List Nat),
      (pieceIndex ≥ ((exchange_messages negMsgs []).2).length ∨
        ((exchange_messages negMsgs []).2).getD pieceIndex 0 = 0) →
      download_piece connectOk handshakeOk negMsgs recvMsgs pieceIndex
        pieceLength totalLength expectedHash = (none, [])) := by
  have hlt : idx < (if bf.length ≤ idx
      then bf ++ List.replicate (idx + 1 - bf.length) 0 else bf).length := by
    by_cases h : bf.length ≤ idx
    · rw [if_pos h]
      simp
      omega
    · rw [if_neg h]
      omega
  refine ⟨⟨unpackBitfield_length payload, unpackBitfield_getD payload⟩, ⟨?_, ?_, ?_⟩, ?_⟩
  · unfold haveExtend
    by_cases h : bf.length ≤ idx
    · rw [if_pos h]
      simp
      omega
    · rw [if_neg h]
      simp
      omega
  · unfold haveExtend
    rw [List.getD_eq_getElem?_getD, List.getElem?_set_self hlt]
    rfl
  · intro j hj
    have hrep : ∀ m k : Nat, (List.replicate m 0).getD k 0 = 0 := by
      intro m k
      rcases hk : (List.replicate m 0)[k]? with _ | v
      · rw [List.getD_eq_getElem?_getD, hk]
        rfl
      · rw [List.getD_eq_getElem?_getD, hk]
        exact List.eq_of_mem_replicate (List.getElem?_mem hk)
    unfold haveExtend
    rw [List.getD_eq_getElem?_getD, List.getElem?_set_ne (Ne.symm hj),
      ← List.getD_eq_getElem?_getD]
    by_cases h : bf.length ≤ idx
    · rw [if_pos h]
      by_cases hjb : j < bf.length
      · rw [List.getD_append _ _ _ _ hjb]
      · rw [List.getD_append_right _ _ _ _ (by omega), hrep,
          List.getD_eq_default _ _ (by omega)]
    · rw [if_neg h]
  · intro connectOk handshakeOk negMsgs recvMsgs pieceIndex pieceLength
      totalLength expectedHash hgate
    unfold download_piece
    cases connectOk
    · simp
    · cases handshakeOk
      · simp
      · match hex : exchange_messages negMsgs [] with
        | (false, bfx) => simp [hex]
        | (true, bfx) =>
          rw [hex] at hgate
          simp only at hgate
          simp [hex]
          intro h1 h2
          rcases hgate with hg | hg
          · omega
          · rw [← List.getD_eq_getElem?_getD] at h2
            exact absurd hg h2

/-- Witness for C8 at a concrete session: the peer's bitfield `[0x00]`
unpacks with bit 0 clear, so the session for piece 0 returns none and sends
no requests. -/
theorem C8_bitfield_unpack_and_gating_witness :
    download_piece true true [EMsg.msg 5 [0], EMsg.msg 1 []] [] 0 2 2 [] =
      (none, []) :=
  (C8_bitfield_unpack_and_gating [0] [] 0).2.2 true true
    [EMsg.msg 5 [0], EMsg.msg 1 []] [] 0 2 2 [] (Or.inr rfl)

/-- **C9.** Whenever `download_piece` returns bytes rather than none, the
SHA-1 digest of those bytes equals the expected piece hash; and on every
failure along the session — connect failure, handshake failure, no unchoke
before the timeout, an empty/failed block receive, or a hash mismatch —
it returns none. -/
theorem C9_download_piece_verified (connectOk handshakeOk : Bool)
    (negMsgs : List EMsg) (recvMsgs : List RecvMsg)
    (pieceIndex pieceLength totalLength : Nat) (expectedHash : List Nat) :
    (∀ d, (download_piece connectOk handshakeOk negMsgs recvMsgs pieceIndex
        pieceLength totalLength expectedHash).1 = some d →
      sha1 d = expectedHash) ∧
    (connectOk = false →
      (download_piece connectOk handshakeOk negMsgs recvMsgs pieceIndex
        pieceLength totalLength expectedHash).1 = none) ∧
    (handshakeOk = false →
      (download_piece connectOk handshakeOk negMsgs recvMsgs pieceIndex
        pieceLength totalLength expectedHash).1 = none) ∧
    ((exchange_messages negMsgs []).1 = false →
      (download_piece connectOk handshakeOk negMsgs recvMsgs pieceIndex
        pieceLength totalLength expectedHash).1 = none) ∧
    (receive_piece pieceIndex pieceLength totalLength recvMsgs = [] →
      (download_piece connectOk handshakeOk negMsgs recvMsgs pieceIndex
        pieceLength totalLength expectedHash).1 = none) ∧
    (sha1 (receive_piece pieceIndex pieceLength totalLength recvMsgs) ≠
        expectedHash →
      (download_piece connectOk handshakeOk negMsgs recvMsgs pieceIndex
        pieceLength totalLength expectedHash).1 = none) := by
  refine ⟨?_, ?_, ?_, ?_, ?_, ?_⟩
  · intro d h
    unfold download_piece at h
    cases connectOk
    · simp at h
    · cases handshakeOk
      · simp at h
      · match hex : exchange_messages negMsgs [] with
        | (false, bfx) => rw [hex] at h; simp at h
        | (true, bfx) =>
          rw [hex] at h
          dsimp only at h
          by_cases hgate : pieceIndex >= bfx.length ∨ bfx.getD pieceIndex 0 = 0
          · rw [if_pos hgate] at h
            simp at h
          · rw [if_neg hgate] at h
            by_cases hempty : receive_piece pieceIndex pieceLength totalLength recvMsgs = []
            · rw [if_pos hempty] at h
              simp at h
            · rw [if_neg hempty] at h
              by_cases hv : verify_piece (receive_piece pieceIndex pieceLength
                  totalLength recvMsgs) expectedHash = true
              · rw [if_pos hv] at h
                have hd : receive_piece pieceIndex pieceLength totalLength recvMsgs
                    = d := by simpa using h
                rw [← hd]
                simpa [verify_piece] using hv
              · rw [if_neg hv] at h
                simp at h
  · intro hc
    subst hc
    simp [download_piece]
  · intro hh
    subst hh
    cases connectOk <;> simp [download_piece]
  · intro hu
    unfold download_piece
    match hex : exchange_messages negMsgs [] with
    | (u, bfx) =>
      rw [hex] at hu
      simp only at hu
      subst hu
      cases connectOk <;> cases handshakeOk <;> simp [hex]
  · intro hempty
    unfold download_piece
    cases connectOk
    · simp
    · cases handshakeOk
      · simp
      · match hex : exchange_messages negMsgs [] with
        | (false, bfx) => simp [hex]
        | (true, bfx) =>
          simp only [hex, Bool.not_true, if_false, ite_false]
          split_ifs with h1 h2 h3 <;> simp_all
  · intro hhash
    unfold download_piece
    cases connectOk
    · simp
    · cases handshakeOk
      · simp
      · match hex : exchange_messages negMsgs [] with
        | (false, bfx) => simp [hex]
        | (true, bfx) =>
          simp only [hex, Bool.not_true, if_false, ite_false]
          split_ifs with h1 h2 h3 <;> simp_all [verify_piece]

/-! ### Claim C7 — block split and reassembly round-trip -/

/-- Modelled from the spec: `(offset, length)` blocks tile the interval
`[s, e)` consecutively, in ascending offset order, with positive sizes. -/
def blocksTile : Nat → Nat → List (Nat × Nat) → Prop
  | s, e, [] => s = e
  | s, e, (o, n) :: rest => o = s ∧ 0 < n ∧ blocksTile (s + n) e rest

/-- Total size of a block list. -/
def sumSizes (bs : List (Nat × Nat)) : Nat := (bs.map Prod.snd).sum

/-- The stored form of a block list for piece bytes `data`: offset paired
with the corresponding slice of the piece. -/
def blocksOf (data : List Nat) (bs : List (Nat × Nat)) : List (Nat × List Nat) :=
  bs.map (fun b => (b.1, (data.drop b.1).take b.2))

theorem requestBlocksGo_ge {actual : Nat} :
    ∀ (fuel offset : Nat), actual ≤ offset → requestBlocksGo actual fuel offset = []
  | 0, _, _ => rfl
  | fuel + 1, offset, h => by
    unfold requestBlocksGo
    rw [if_neg (by omega)]

theorem requestBlocksGo_tile {actual : Nat} :
    ∀ (fuel offset : Nat), offset ≤ actual → actual - offset ≤ fuel →
      blocksTile offset actual (requestBlocksGo actual fuel offset)
  | 0, offset, h1, h2 => by
    have : offset = actual := by omega
    subst this
    exact rfl
  | fuel + 1, offset, h1, h2 => by
    unfold requestBlocksGo
    by_cases h : offset < actual
    · rw [if_pos h]
      refine ⟨rfl, by omega, ?_⟩
      by_cases h16 : actual - offset ≤ 16384
      · have hmin : min 16384 (actual - offset) = actual - offset := by omega
        rw [hmin]
        have hnext : requestBlocksGo actual fuel (offset + 16384) = [] :=
          requestBlocksGo_ge fuel _ (by omega)
        have heq : offset + (actual - offset) = actual := by omega
        rw [heq]
        rw [show offset + 16384 = offset + 16384 from rfl] at hnext
        have : blocksTile actual actual [] := rfl
        rw [← hnext] at this
        have hge : requestBlocksGo actual fuel (offset + 16384) = [] := hnext
        show blocksTile actual actual (requestBlocksGo actual fuel (offset + 16384))
        rw [hge]
        exact rfl
      · have hmin : min 16384 (actual - offset) = 16384 := by omega
        rw [hmin]
        exact requestBlocksGo_tile fuel (offset + 16384) (by omega) (by omega)
    · rw [if_neg h]
      have : offset = actual := by omega
      subst this
      exact rfl

theorem requestBlocksGo_size {actual : Nat} :
    ∀ (fuel offset : Nat), ∀ b ∈ requestBlocksGo actual fuel offset,
      b.2 ≤ 16384 ∧ (b.2 = 16384 ∨ b.1 + b.2 = actual)
  | 0, _, b, hb => absurd hb (List.not_mem_nil b)
  | fuel + 1, offset, b, hb => by
    unfold requestBlocksGo at hb
    by_cases h : offset < actual
    · rw [if_pos h] at hb
      rcases List.mem_cons.mp hb with rfl | hb

      · constructor
        · simp
        · by_cases h16 : actual - offset ≤ 16384
          · right
            simp
            omega
          · left
            simp
            omega
      · exact requestBlocksGo_size fuel (offset + 16384) b hb
    · rw [if_neg h] at hb
      exact absurd hb (List.not_mem_nil b)

theorem blocksTile_sum : ∀ {bs : List (Nat × Nat)} {s e : Nat},
    blocksTile s e bs → s + sumSizes bs = e
  | [], _, _, h => by
    simp [sumSizes]
    exact h
  | (o, n) :: rest, s, e, ⟨ho, hn, hrest⟩ => by
    have := blocksTile_sum hrest
    simp [sumSizes, List.map_cons, List.sum_cons] at *
    omega

theorem blocksTile_mem : ∀ {bs : List (Nat × Nat)} {s e : Nat},
    blocksTile s e bs → ∀ b ∈ bs, s ≤ b.1 ∧ 0 < b.2 ∧ b.1 + b.2 ≤ e
  | [], _, _, _, b, hb => absurd hb (List.not_mem_nil b)
  | (o, n) :: rest, s, e, ⟨ho, hn, hrest⟩, b, hb => by
    rcases List.mem_cons.mp hb with rfl | hb
    · refine ⟨by omega, hn, ?_⟩
      have hsum := blocksTile_sum hrest
      omega
    · have := blocksTile_mem hrest b hb
      omega

theorem blocksOf_sumLens {d : List Nat} : ∀ {bs : List (Nat × Nat)} {s e : Nat},
    blocksTile s e bs → e ≤ d.length → sumLens (blocksOf d bs) = sumSizes bs
  | [], _, _, _, _ => rfl
  | (o, n) :: rest, s, e, ht, he => by
    obtain ⟨ho, hn, hrest⟩ := ht
    have hsum := blocksTile_sum hrest
    have hlen : ((d.drop o).take n).length = n := by
      simp only [List.length_take, List.length_drop]
      omega
    have ih := blocksOf_sumLens (d := d) hrest he
    simp only [blocksOf, List.map_cons, sumLens, List.sum_cons, sumSizes] at ih ⊢
    rw [hlen, ih]

theorem blocksOf_flatten {d : List Nat} : ∀ {bs : List (Nat × Nat)} {s : Nat},
    blocksTile s d.length bs →
    ((blocksOf d bs).map Prod.snd).flatten = d.drop s
  | [], s, h => by
    have hs : s = d.length := h
    rw [List.drop_eq_nil_of_le (by omega)]
    rfl
  | (o, n) :: rest, s, ht => by
    obtain ⟨ho, hn, hrest⟩ := ht
    have ih := blocksOf_flatten (d := d) hrest
    simp only [blocksOf, List.map_cons, List.flatten_cons] at ih ⊢
    rw [ih]
    subst ho
    have hdd : d.drop (o + n) = (d.drop o).drop n := by
      rw [List.drop_drop]
      try congr 1
      try omega
    rw [hdd]
    exact List.take_append_drop n (d.drop o)

theorem sumLens_filter_le (p : Nat × List Nat → Bool) :
    ∀ m : List (Nat × List Nat), sumLens (m.filter p) ≤ sumLens m
  | [] => le_rfl
  | q :: rest => by
    have ih := sumLens_filter_le p rest
    simp only [List.filter_cons]
    by_cases hq : p q = true
    · rw [if_pos hq]
      simp only [sumLens, List.map_cons, List.sum_cons] at ih ⊢
      omega
    · rw [if_neg hq]
      simp only [sumLens, List.map_cons, List.sum_cons] at ih ⊢
      omega

theorem blocksOf_cons (data : List Nat) (o n : Nat) (rest : List (Nat × Nat)) :
    blocksOf data ((o, n) :: rest) =
      (o, (data.drop o).take n) :: blocksOf data rest := rfl

theorem sumLens_cons (q : Nat × List Nat) (m : List (Nat × List Nat)) :
    sumLens (q :: m) = q.2.length + sumLens m := by
  simp [sumLens]

theorem stored_full {d : List Nat} : ∀ {bs : List (Nat × Nat)} {s : Nat},
    blocksTile s d.length bs →
    ∀ p : Nat × List Nat → Bool,
      d.length - s ≤ sumLens ((blocksOf d bs).filter p) →
      (blocksOf d bs).filter p = blocksOf d bs
  | [], _, _, _, _ => rfl
  | (o, n) :: rest, s, ht, p, hthresh => by
    obtain ⟨ho, hn, hrest⟩ := ht
    subst ho
    have hsum := blocksTile_sum hrest
    have hlensum := blocksOf_sumLens (d := d) hrest le_rfl
    have hslice : ((d.drop o).take n).length = n := by
      simp only [List.length_take, List.length_drop]
      omega
    have hfle := sumLens_filter_le p (blocksOf d rest)
    rw [blocksOf_cons, List.filter_cons] at hthresh ⊢
    by_cases hq : p (o, (d.drop o).take n) = true
    · rw [if_pos hq] at hthresh ⊢
      rw [sumLens_cons] at hthresh
      simp only at hthresh
      rw [hslice] at hthresh
      have ih := stored_full (d := d) hrest p (by omega)
      rw [ih]
    · rw [if_neg hq] at hthresh
      exfalso
      omega

theorem insertSorted_front {o : Nat} {v : List Nat} :
    ∀ {m : List (Nat × List Nat)}, (∀ q ∈ m, o < q.1) →
      insertSorted o v m = (o, v) :: m
  | [], _ => rfl
  | (k, d) :: rest, h => by
    have hk := h (k, d) (by simp)
    unfold insertSorted
    rw [if_pos hk]

theorem insert_filter {d : List Nat} :
    ∀ {bs : List (Nat × Nat)} {s e : Nat}, blocksTile s e bs →
    ∀ (done : List Nat) (o n : Nat), (o, n) ∈ bs →
      insertSorted o ((d.drop o).take n)
          ((blocksOf d bs).filter (fun q => decide (q.1 ∈ done))) =
        (blocksOf d bs).filter (fun q => decide (q.1 ∈ o :: done))
  | [], _, _, _, _, _, _, hmem => absurd hmem (List.not_mem_nil _)
  | (o', n') :: rest, s, e, ht, done, o, n, hmem => by
    obtain ⟨ho', hn', hrest⟩ := ht
    have hrestmem := blocksTile_mem hrest
    rw [blocksOf_cons, List.filter_cons, List.filter_cons]
    by_cases ho : o = o'
    · subst ho
      have hnn' : n = n' := by
        rcases List.mem_cons.mp hmem with heq | hmem'
        · exact (Prod.mk.injEq _ _ _ _ ▸ heq).2
        · exfalso
          have := (hrestmem _ hmem').1
          omega
      subst hnn'
      have hgt : ∀ b ∈ rest, o < b.1 := by
        intro b hb
        have := (hrestmem b hb).1
        omega
      have hfc : (blocksOf d rest).filter (fun q => decide (q.1 ∈ o :: done)) =
          (blocksOf d rest).filter (fun q => decide (q.1 ∈ done)) := by
        apply List.filter_congr
        intro q hq
        obtain ⟨b, hb, rfl⟩ := List.mem_map.mp hq
        have hne : b.1 ≠ o := by
          have := hgt b hb
          omega
        simp [List.mem_cons, hne]
      by_cases hd : o ∈ done
      · rw [if_pos (by simpa using hd), if_pos (by simp), hfc]
        unfold insertSorted
        rw [if_neg (lt_irrefl o), if_pos rfl]
      · rw [if_neg (by simpa using hd), if_pos (by simp), hfc]
        have hkeys : ∀ q ∈ (blocksOf d rest).filter
            (fun q => decide (q.1 ∈ done)), o < q.1 := by
          intro q hq
          have hq' := List.mem_of_mem_filter hq
          obtain ⟨b, hb, rfl⟩ := List.mem_map.mp hq'
          exact hgt b hb
        rw [insertSorted_front hkeys]
    · have hmem' : (o, n) ∈ rest := by
        rcases List.mem_cons.mp hmem with heq | h
        · exact absurd (Prod.mk.injEq _ _ _ _ ▸ heq).1 ho
        · exact h
      have hso : s + n' ≤ o := (hrestmem _ hmem').1
      have hne : o' ≠ o := by omega
      have ih := insert_filter (d := d) hrest done o n hmem'
      by_cases hd : o' ∈ done
      · rw [if_pos (by simpa using hd), if_pos (by
          simp only [decide_eq_true_eq, List.mem_cons]
          exact Or.inr hd)]
        unfold insertSorted
        rw [if_neg (by omega), if_neg (by omega), ih]
      · rw [if_neg (by simpa using hd), if_neg (by
          simp only [decide_eq_true_eq, List.mem_cons]
          push_neg
          exact ⟨hne, hd⟩)]
        exact ih

/-- The receive loop, fed any interleaving of exactly the requested blocks
(every message is some requested block, every requested block occurs),
terminates with the complete stored block map. -/
theorem receiveLoop_spec (pieceIndex : Nat) (data : List Nat)
    {bs : List (Nat × Nat)} (htile : blocksTile 0 data.length bs) :
    ∀ (msgs : List RecvMsg) (done : List Nat),
      (∀ m ∈ msgs, ∃ b ∈ bs,
        m = RecvMsg.piece pieceIndex b.1 ((data.drop b.1).take b.2)) →
      (∀ b ∈ bs,
        (RecvMsg.piece pieceIndex b.1 ((data.drop b.1).take b.2)) ∈ msgs ∨
          b.1 ∈ done) →
      receiveLoop pieceIndex data.length msgs
          ((blocksOf data bs).filter (fun q => decide (q.1 ∈ done))) =
        some (blocksOf data bs) := by
  intro msgs
  induction msgs with
  | nil =>
    intro done hall hcomp
    have hstored : (blocksOf data bs).filter (fun q => decide (q.1 ∈ done)) =
        blocksOf data bs := by
      apply List.filter_eq_self.mpr
      intro q hq
      obtain ⟨b, hb, rfl⟩ := List.mem_map.mp hq
      rcases hcomp b hb with h | h
      · exact absurd h (List.not_mem_nil _)
      · simpa using h
    rw [hstored]
    unfold receiveLoop
    rw [if_pos (by
      have h1 := blocksOf_sumLens (d := data) htile le_rfl
      have h2 := blocksTile_sum htile
      omega)]
  | cons m rest ih =>
    intro done hall hcomp
    by_cases hsum : data.length ≤
        sumLens ((blocksOf data bs).filter (fun q => decide (q.1 ∈ done)))
    · have hfull := stored_full (d := data) htile
        (fun q => decide (q.1 ∈ done)) (by omega)
      unfold receiveLoop
      rw [if_pos hsum, hfull]
    · obtain ⟨b, hb, rfl⟩ := hall m (by simp)
      unfold receiveLoop
      rw [if_neg hsum]
      simp only
      rw [if_pos trivial]
      have hbmem : (b.1, b.2) ∈ bs := by simpa using hb
      rw [insert_filter (d := data) htile done b.1 b.2 hbmem]
      apply ih (b.1 :: done)
      · intro m' hm'
        exact hall m' (by simp [hm'])
      · intro b' hb'
        rcases hcomp b' hb' with hmsg | hdone
        · rcases List.mem_cons.mp hmsg with heq | hmem
          · right
            have : b'.1 = b.1 := by
              injection heq with _ h2 _
            simp [this]
          · left
            exact hmem
        · right
          simp [hdone]

/-- **C7.** `request_piece` emits block requests that partition
`[0, actual_length)` into ascending-offset blocks of exactly 16 KiB except
a possibly shorter final block; and for every delivery of exactly these
blocks in any arrival order, possibly with duplicates (last write per
offset wins), `receive_piece` returns the concatenation of the stored
blocks in ascending offset order, which equals the original piece bytes. -/
theorem C7_block_split_roundtrip (pieceIndex pieceLength totalLength : Nat)
    (data : List Nat) (msgs : List RecvMsg)
    (hdata : data.length = actualLength pieceIndex pieceLength totalLength)
    (hall : ∀ m ∈ msgs, ∃ b ∈ request_piece pieceIndex pieceLength totalLength,
      m = RecvMsg.piece pieceIndex b.1 ((data.drop b.1).take b.2))
    (hcomplete : ∀ b ∈ request_piece pieceIndex pieceLength totalLength,
      RecvMsg.piece pieceIndex b.1 ((data.drop b.1).take b.2) ∈ msgs) :
    blocksTile 0 (actualLength pieceIndex pieceLength totalLength)
      (request_piece pieceIndex pieceLength totalLength) ∧
    (∀ b ∈ request_piece pieceIndex pieceLength totalLength,
      b.2 ≤ 16384 ∧
        (b.2 = 16384 ∨ b.1 + b.2 = actualLength pieceIndex pieceLength totalLength)) ∧
    receive_piece pieceIndex pieceLength totalLength msgs = data := by
  have htile0 : blocksTile 0 (actualLength pieceIndex pieceLength totalLength)
      (request_piece pieceIndex pieceLength totalLength) :=
    requestBlocksGo_tile _ 0 (by omega) (by omega)
  refine ⟨htile0, fun b hb => requestBlocksGo_size _ 0 b hb, ?_⟩
  have htile : blocksTile 0 data.length
      (request_piece pieceIndex pieceLength totalLength) := by
    rw [hdata]
    exact htile0
  have hloop := receiveLoop_spec pieceIndex data htile msgs []
    hall (fun b hb => Or.inl (hcomplete b hb))
  have hinit : (blocksOf data (request_piece pieceIndex pieceLength
      totalLength)).filter (fun q => decide (q.1 ∈ ([] : List Nat))) = [] := by
    simp
  rw [hinit] at hloop
  unfold receive_piece
  rw [hdata] at hloop
  rw [hloop]
  show ((blocksOf data (request_piece pieceIndex pieceLength totalLength)).map
    Prod.snd).flatten = data
  have hfl := blocksOf_flatten (d := data) htile
  rw [hfl, List.drop_zero]

set_option maxRecDepth 1000000 in
/-- Witness for C7 at a concrete session: a 3-byte piece with one block,
delivered twice (duplicate delivery), reassembles to the original bytes. -/
theorem C7_block_split_roundtrip_witness :
    receive_piece 0 3 3 [RecvMsg.piece 0 0 [1, 2, 3], RecvMsg.piece 0 0 [1, 2, 3]]
      = [1, 2, 3] :=
  (C7_block_split_roundtrip 0 3 3 [1, 2, 3]
    [RecvMsg.piece 0 0 [1, 2, 3], RecvMsg.piece 0 0 [1, 2, 3]]
    (by decide) (by decide) (by decide)).2.2

set_option maxRecDepth 1000000 in
/-- Witness for C9 at a concrete successful session (bitfield `0x80`,
unchoke, single 2-byte block): the returned bytes hash to the expected
digest — which is the known SHA-1 of `"ab"`. -/
theorem C9_download_piece_verified_witness :
    sha1 [97, 98] =
      [0xda, 0x23, 0x61, 0x4e, 0x02, 0x46, 0x9a, 0x0d, 0x7c, 0x7b,
       0xd1, 0xbd, 0xab, 0x5c, 0x9c, 0x47, 0x4b, 0x19, 0x04, 0xdc] :=
  (C9_download_piece_verified true true [EMsg.msg 5 [128], EMsg.msg 1 []]
    [RecvMsg.piece 0 0 [97, 98]] 0 2 2
    [0xda, 0x23, 0x61, 0x4e, 0x02, 0x46, 0x9a, 0x0d, 0x7c, 0x7b,
     0xd1, 0xbd, 0xab, 0x5c, 0x9c, 0x47, 0x4b, 0x19, 0x04, 0xdc]).1
    [97, 98] (by decide)

/-! ## `main.py` — download worker peer-pool discipline (claim C10)

One iteration of the retry loop of `download_worker`: pop a peer from the
front of `peer_deque` under the lock (sleep and retry when empty); then the
`try` block awaits `PeerConnector.download_piece`; on a truthy result the
peer is pushed to the *front*, after which — still inside the `try` —
`Assembler.assemble` is awaited and the progress bar updated; on a falsy
result the peer is pushed to the *back*; the `except Exception` handler
pushes the peer to the *back*.  `download_piece` itself catches its own
exceptions and returns `None`, so an exception reaching the worker's
handler arises either before the success push-front (call/argument
evaluation) or after it (in the assemble enqueue or the progress update) —
and in the latter case the handler pushes the already-pushed peer a second
time. -/

/-- Outcome of one leased peer session inside the worker's `try` block. -/
inductive LeaseOutcome where
  | success
  | failure
  | raisedBefore
  | raisedAfter
deriving DecidableEq

/-- One iteration of `download_worker`'s retry loop on the peer deque
(front at the head of the list): the new deque and the leased peer. -/
def workerIter (dq : List Nat) (o : LeaseOutcome) : List Nat × Option Nat :=
  match dq with
  | [] => (dq, none)
  | p :: rest =>
    match o with
    | .success => (p :: rest, some p)
    | .failure => (rest ++ [p], some p)
    | .raisedBefore => (rest ++ [p], some p)
    | .raisedAfter => ((p :: rest) ++ [p], some p)

/-- **C10 counterexample.** When an exception is raised inside the `try`
block *after* the success push-front (e.g. while enqueuing the assembly
task or updating progress), the `except` handler appends the same peer
again: starting from the one-peer deque `[7]`, the iteration ends with
`[7, 7]` — the leased peer was pushed back twice, not exactly once, and the
deque now holds a duplicate entry. -/
theorem C10_double_push_counterexample :
    workerIter [7] .raisedAfter = ([7, 7], some 7) ∧
    ((workerIter [7] .raisedAfter).1).length = 2 ∧
    ((workerIter [7] .raisedAfter).1).count 7 = 2 := by
  refine ⟨rfl, rfl, rfl⟩

/-- **C10 amended.** A peer popped from the front is pushed back exactly
once before the next lease — to the front on success, to the back on
failure or on an exception raised before the success push — so the deque is
conserved (a permutation of what it was) for every outcome except an
exception raised after the success push-front, in which case the peer is
pushed a second time to the back and the deque gains a duplicate. -/
theorem C10_peer_pool_conservation (dq : List Nat) (o : LeaseOutcome) :
    (o ≠ .raisedAfter → ((workerIter dq o).1).Perm dq) ∧
    (workerIter dq o).2 = dq.head? ∧
    (∀ p rest, dq = p :: rest → o = .raisedAfter →
      (workerIter dq o).1 = dq ++ [p]) := by
  refine ⟨?_, ?_, ?_⟩
  · intro ho
    match dq, o with
    | [], _ => exact List.Perm.refl _
    | p :: rest, .success => exact List.Perm.refl _
    | p :: rest, .failure => exact List.perm_append_singleton p rest
    | p :: rest, .raisedBefore => exact List.perm_append_singleton p rest
    | p :: rest, .raisedAfter => exact absurd rfl ho
  · match dq, o with
    | [], _ => rfl
    | p :: rest, .success => rfl
    | p :: rest, .failure => rfl
    | p :: rest, .raisedBefore => rfl
    | p :: rest, .raisedAfter => rfl
  · intro p rest hdq hoeq
    subst hdq
    subst hoeq
    rfl

/-- Witness for the amended C10 theorem at a concrete deque: a failed
download on deque `[3, 4]` leases peer 3 and pushes it to the back, a
permutation of the original pool. -/
theorem C10_peer_pool_conservation_witness :
    ((workerIter [3, 4] .failure).1).Perm [3, 4] ∧
    (workerIter [3, 4] .failure).2 = some 3 :=
  ⟨(C10_peer_pool_conservation [3, 4] .failure).1 (by decide),
   ((C10_peer_pool_conservation [3, 4] .failure).2.1).trans rfl⟩

end ZapTorrent
